import Mathlib

/-!
# k-mer counting (`kmer_counting.c`): embedding and verified properties

The C program loads a vocabulary of 8-mers, counts their occurrences in the
sequence lines of a FASTQ stream with a sliding window and a binary search,
and rescales the counts so that they sum to `4^8`.

Modelling conventions.

* A C string is the list of its bytes before the terminating NUL, written as a
  `List Char` (a `Char` stands for one `unsigned char`; `strcmp` compares by
  `Char.toNat`).  A line buffer filled by `fgets`/`gzgets` is viewed through
  `cstr`, which cuts it at the first NUL exactly as every `str*` function does.
* The array `KmerCount *kmers` together with its length `kmerCount` is a
  `List KmerCount`; a pointer into the array is an index.
* `double` counts are rationals.  Counting adds 1 to whole numbers, which is
  exact.  The normalisation is given twice: `normalizeCounts` computes in exact
  arithmetic, `normalizeCountsDouble` rounds every operation to 53 significant
  bits as IEEE-754 does.  Division by zero, which IEEE-754 answers with NaN or
  an infinity, is made explicit by `fdiv`.
* The counters `*totalKmers` and `*totalReads` are `int`s that wrap modulo
  `2^32` (`wrapInt32`).  The line number is a natural number: the model
  describes inputs of fewer than `2^31` lines.  The loop bound
  `lineLength - KMER_LENGTH`, where a negative `int` matters, is computed in
  `Int`.
* `bsearch` and `qsort` are library code; they are modelled by the usual
  bisection loop and by an insertion sort driven by `compareKmers`.
-/

namespace KmerCounting

/-! ## Data model -/

/-- The k-mer length, `#define KMER_LENGTH 8`. -/
def KMER_LENGTH : Nat := 8

/-- An entry of the vocabulary: `struct { char kmer[KMER_LENGTH + 1]; double count; }`. -/
structure KmerCount where
  kmer : List Char
  count : ℚ
deriving DecidableEq

/-- The C string held in a buffer: the bytes before the first NUL. -/
def cstr (buf : List Char) : List Char :=
  buf.takeWhile (fun c => c != Char.ofNat 0)

/-- The library function `strcmp`: bytes are compared as unsigned values, the
first difference decides, and a proper prefix is smaller (its terminating NUL
is below every byte of a string).  Only the sign of the result is used. -/
def strcmp : List Char → List Char → Int
  | [], [] => 0
  | [], _ :: _ => -1
  | _ :: _, [] => 1
  | a :: as, b :: bs =>
    if a = b then strcmp as bs else (a.toNat : Int) - (b.toNat : Int)

/-- The comparator `compareKmers`, used by both `qsort` and `bsearch`. -/
def compareKmers (a b : KmerCount) : Int :=
  strcmp a.kmer b.kmer

/-- The bisection loop of the library function `bsearch` over the index range
`[l, u)`: `fuel` bounds the number of iterations, the result is the index of
the element found. -/
def bsearchLoop (key : KmerCount) (kmers : List KmerCount) : Nat → Nat → Nat → Option Nat
  | 0, _, _ => none
  | fuel + 1, l, u =>
    if l < u then
      let idx := (l + u) / 2
      match kmers[idx]? with
      | none => none
      | some e =>
        let cmp := compareKmers key e
        if cmp < 0 then bsearchLoop key kmers fuel l idx
        else if cmp > 0 then bsearchLoop key kmers fuel (idx + 1) u
        else some idx
    else none

/-- The library function `bsearch` on the whole array; `size + 1` iterations
always suffice, since every iteration shrinks the range. -/
def bsearch (key : KmerCount) (kmers : List KmerCount) : Option Nat :=
  bsearchLoop key kmers (kmers.length + 1) 0 kmers.length

/-- The function `findKmer`: the key is the first `KMER_LENGTH` bytes of the
candidate (`strncpy` followed by the terminating NUL), its count is unused. -/
def findKmer (kmers : List KmerCount) (kmer : List Char) : Option Nat :=
  bsearch { kmer := kmer.take KMER_LENGTH, count := 0 } kmers

/-! ## Counting -/

/-- The value an `int` holds when the mathematical result is `x`: the result
modulo `2^32`, in the range from `INT_MIN` to `INT_MAX` (two's complement).
Overflow of a signed `int` is undefined in C; wrapping is what the usual
compilers produce. -/
def wrapInt32 (x : Int) : Int :=
  (x + 2147483648) % 4294967296 - 2147483648

/-- The statement `found->count++` on the entry at index `idx`. -/
def incrAt : List KmerCount → Nat → List KmerCount
  | [], _ => []
  | e :: es, 0 => { e with count := e.count + 1 } :: es
  | e :: es, idx + 1 => e :: incrAt es idx

/-- The variables `countKmersInFastq` writes: the array, the three `int`
results, and a ghost trace of the candidates passed to `findKmer`, oldest
first.  `*totalKmers` and `*totalReads` are incremented without bound by the
code, so they are `int` values; `*readLength` is a line length, below the
buffer size. -/
structure CountState where
  kmers : List KmerCount
  totalKmers : Int
  totalReads : Int
  readLength : Nat
  lookups : List (List Char)
deriving DecidableEq

/-- One iteration of the window loop, at start offset `i`. -/
def countWindow (line : List Char) (st : CountState) (i : Nat) : CountState :=
  let kmer := (line.drop i).take KMER_LENGTH
  let st1 := { st with lookups := st.lookups ++ [kmer] }
  match findKmer st1.kmers kmer with
  | some idx => { st1 with kmers := incrAt st1.kmers idx, totalKmers := wrapInt32 (st1.totalKmers + 1) }
  | none => st1

/-- The loop `for (int i = 0; i <= lineLength - KMER_LENGTH; i++)`: the bound
is a signed difference, so a line shorter than the window gives no iteration. -/
def windowLoop (line : List Char) (st : CountState) : CountState :=
  let lineLength : Int := line.length
  (List.range (lineLength - KMER_LENGTH + 1).toNat).foldl (countWindow line) st

/-- The statements after the `N` test, for a line that passed it: the read
is counted, the first one sets `*readLength`, and the window loop runs. -/
def acceptRead (st : CountState) (line : List Char) : CountState :=
  let lineLength := line.length
  let st1 := { st with totalReads := wrapInt32 (st.totalReads + 1) }
  let st2 := if st1.readLength = 0 then { st1 with readLength := lineLength } else st1
  windowLoop line st2

/-- The body of `if (lineNumber % 4 == 2)` for one buffer: the newline is cut
off, and a line holding an `N` takes the `continue`. -/
def processSequenceLine (buf : List Char) (st : CountState) : CountState :=
  let line := (cstr buf).takeWhile (fun c => c != Char.ofNat 10)
  if Char.ofNat 78 ∈ line then st else acceptRead st line

/-- The loop `while (gzgets(...))` over the buffers still to come;
`lineNumber` is the number of buffers read so far. -/
def countLoop : List (List Char) → Nat → CountState → CountState
  | [], _, st => st
  | buf :: rest, lineNumber, st =>
    let lineNumber1 := lineNumber + 1
    if lineNumber1 % 4 = 2 then countLoop rest lineNumber1 (processSequenceLine buf st)
    else countLoop rest lineNumber1 st

/-- The function `countKmersInFastq` on the buffers that successive `gzgets`
calls deliver. -/
def countKmersInFastq (lines : List (List Char)) (kmers : List KmerCount) : CountState :=
  countLoop lines 0
    { kmers := kmers, totalKmers := 0, totalReads := 0, readLength := 0, lookups := [] }

/-- The first `sizeof(line) - 1` bytes that one `gzgets(file, line, sizeof(line))`
call may deliver. -/
def LINE_MAX : Nat := 1023

/-- One call of `gzgets` on the bytes not yet read: it copies at most `n`
bytes and stops after a newline; the result is the buffer and what is left. -/
def gzgets : Nat → List Char → List Char × List Char
  | 0, content => ([], content)
  | _ + 1, [] => ([], [])
  | n + 1, c :: cs =>
    if c = Char.ofNat 10 then ([c], cs)
    else ((c :: (gzgets n cs).1), (gzgets n cs).2)

/-- The buffers delivered by calling `gzgets` until it returns `NULL` at the
end of the stream; `fuel` bounds the number of calls. -/
def gzgetsAll : Nat → List Char → List (List Char)
  | 0, _ => []
  | _ + 1, [] => []
  | fuel + 1, c :: cs =>
    (gzgets LINE_MAX (c :: cs)).1 :: gzgetsAll fuel (gzgets LINE_MAX (c :: cs)).2

/-- The function `countKmersInFastq` on the decompressed content of the file:
every call of `gzgets` consumes a byte, so `content.length` calls reach the
end. -/
def countKmersInStream (content : List Char) (kmers : List KmerCount) : CountState :=
  countKmersInFastq (gzgetsAll content.length content) kmers

/-! ## Loading the vocabulary -/

/-- The characters both trimming loops of `loadKmers` step over: space, tab,
newline and the double quote. -/
def isTrimChar (c : Char) : Bool :=
  c = Char.ofNat 32 || c = Char.ofNat 9 || c = Char.ofNat 10 || c = Char.ofNat 34

/-- The loop `while (end > trimmedLine && (*end == ...)) end--;` with `end`
as an offset from `trimmedLine`; the result is the final offset. -/
def scanEnd (s : List Char) : Nat → Nat
  | 0 => 0
  | e + 1 => if isTrimChar (s.getD (e + 1) (Char.ofNat 0)) then scanEnd s e else e + 1

/-- The string `trimmedLine` after `*(end + 1) = 0`, for one buffer.  On an
empty remainder `end + 1` is `trimmedLine` itself and the string stays empty. -/
def trimLine (buf : List Char) : List Char :=
  let trimmedLine := (cstr buf).dropWhile isTrimChar
  match trimmedLine.length with
  | 0 => trimmedLine
  | n + 1 => trimmedLine.take (scanEnd trimmedLine n + 1)

/-- A message written to `stderr` by `loadKmers`: the first pass prints
`Invalid k-mer length in file: ...`, the second `Skipping invalid k-mer: ...`,
each with the trimmed string and its length. -/
inductive Diagnostic where
  | invalidLength (trimmed : List Char) (length : Nat)
  | skipping (trimmed : List Char) (length : Nat)
deriving DecidableEq

/-- The first pass of `loadKmers` over one buffer: `*kmerCount` and `stderr`. -/
def countPass (st : Nat × List Diagnostic) (buf : List Char) : Nat × List Diagnostic :=
  let trimmedLine := trimLine buf
  if trimmedLine.length = KMER_LENGTH then (st.1 + 1, st.2)
  else (st.1, st.2 ++ [Diagnostic.invalidLength trimmedLine trimmedLine.length])

/-- The second pass of `loadKmers` over one buffer: the entries written so far
(`index` is their number) and `stderr`. -/
def fillPass (st : List KmerCount × List Diagnostic) (buf : List Char) :
    List KmerCount × List Diagnostic :=
  let trimmedLine := trimLine buf
  if trimmedLine.length = KMER_LENGTH then
    (st.1 ++ [{ kmer := trimmedLine.take KMER_LENGTH, count := 0 }], st.2)
  else (st.1, st.2 ++ [Diagnostic.skipping trimmedLine trimmedLine.length])

/-- The order `compareKmers` induces: `a` may stand before `b`. -/
def kmerLe (a b : KmerCount) : Prop :=
  compareKmers a b ≤ 0

instance kmerLeDecidable : DecidableRel kmerLe :=
  fun a b => inferInstanceAs (Decidable (compareKmers a b ≤ 0))

/-- The library function `qsort` with `compareKmers`. -/
def qsort (kmers : List KmerCount) : List KmerCount :=
  kmers.insertionSort kmerLe

/-- What `loadKmers` produces: the array, `*kmerCount`, and `stderr`. -/
structure LoadResult where
  kmers : List KmerCount
  kmerCount : Nat
  stderr : List Diagnostic
deriving DecidableEq

/-- The function `loadKmers` on the buffers `fgets` delivers, the same in both
passes (the file is rewound in between); `qsort` sorts the first `*kmerCount`
slots of the array. -/
def loadKmers (lines : List (List Char)) : LoadResult :=
  let pass1 := lines.foldl countPass (0, [])
  let pass2 := lines.foldl fillPass ([], pass1.2)
  { kmers := qsort (pass2.1.take pass1.1), kmerCount := pass1.1, stderr := pass2.2 }

/-! ## Normalisation (in `main`) -/

/-- The loop `totalOccurrences += kmers[i].count`, in exact arithmetic. -/
def totalOccurrences (kmers : List KmerCount) : ℚ :=
  kmers.foldl (fun total e => total + e.count) 0

/-- The constant `pow(4, KMER_LENGTH)`. -/
def normalizationFactor : ℚ := 4 ^ KMER_LENGTH

/-- Division of two finite `double`s: a zero divisor gives NaN or an
infinity, written `none`; C neither traps nor reports it. -/
def fdiv (a b : ℚ) : Option ℚ :=
  if b = 0 then none else some (a / b)

/-- An entry after normalisation; `count = none` is a NaN or an infinity. -/
structure NormalizedKmer where
  kmer : List Char
  count : Option ℚ
deriving DecidableEq

/-- The loop `kmers[i].count = kmers[i].count * normalizationFactor / totalOccurrences`,
in exact arithmetic. -/
def normalizeCounts (kmers : List KmerCount) : List NormalizedKmer :=
  let total := totalOccurrences kmers
  kmers.map (fun e => { kmer := e.kmer, count := fdiv (e.count * normalizationFactor) total })

/-- The number of binary digits of `n`; `fuel` bounds the number of halvings. -/
def bitLength : Nat → Nat → Nat
  | 0, _ => 0
  | fuel + 1, n => if n = 0 then 0 else bitLength fuel (n / 2) + 1

/-- The fraction `p / (d * 2^e)` as a numerator and a denominator. -/
def scaledFraction (p d : Nat) (e : Int) : Nat × Nat :=
  if 0 ≤ e then (p, d * 2 ^ e.toNat) else (p * 2 ^ (-e).toNat, d)

/-- The `double` nearest to a rational: 53 significant bits, a tie going to the
even neighbour, as IEEE-754 rounds the result of every operation.  The range
of the exponent is not modelled (the counts are far from its ends). -/
def roundToDouble (q : ℚ) : ℚ :=
  let p := q.num.natAbs
  let d := q.den
  if p = 0 then 0
  else
    let k : Int := (bitLength p p : Int) - (bitLength d d : Int)
    let f : Int := if (scaledFraction p d k).2 ≤ (scaledFraction p d k).1 then k else k - 1
    let e : Int := f - 52
    let n := (scaledFraction p d e).1 / (scaledFraction p d e).2
    let r := (scaledFraction p d e).1 % (scaledFraction p d e).2
    let m :=
      if (scaledFraction p d e).2 < 2 * r ∨ (2 * r = (scaledFraction p d e).2 ∧ n % 2 = 1)
      then n + 1 else n
    let v : ℚ :=
      if 0 ≤ e then ((m * 2 ^ e.toNat : ℕ) : ℚ) else (m : ℚ) / ((2 ^ (-e).toNat : ℕ) : ℚ)
    if q.num < 0 then -v else v

/-- The loop `totalOccurrences += kmers[i].count` on `double`s: every sum is
rounded. -/
def totalOccurrencesDouble (kmers : List KmerCount) : ℚ :=
  kmers.foldl (fun total e => roundToDouble (total + e.count)) 0

/-- The loop `kmers[i].count = kmers[i].count * normalizationFactor / totalOccurrences`
on `double`s: the product is rounded, then the quotient. -/
def normalizeCountsDouble (kmers : List KmerCount) : List NormalizedKmer :=
  let total := totalOccurrencesDouble kmers
  kmers.map (fun e =>
    { kmer := e.kmer,
      count := (fdiv (roundToDouble (e.count * normalizationFactor)) total).map roundToDouble })

/-! ## Notions the specification uses -/

/-- A store sorted ascending by sequence, the precondition of `bsearch`. -/
def StoreSorted (kmers : List KmerCount) : Prop :=
  kmers.Pairwise kmerLe

instance storeSortedDecidable (kmers : List KmerCount) : Decidable (StoreSorted kmers) :=
  inferInstanceAs (Decidable (kmers.Pairwise kmerLe))

/-- The read carried by a sequence line: the line up to its terminator. -/
def readOf (buf : List Char) : List Char :=
  (cstr buf).takeWhile (fun c => c != Char.ofNat 10)

/-- The sequence lines of an input: those whose 1-indexed number is congruent
to 2 modulo 4. -/
def sequenceLines (lines : List (List Char)) : List (List Char) :=
  (lines.enum.filter (fun p => (p.1 + 1) % 4 = 2)).map Prod.snd

/-- The accepted reads of an input: the reads of its sequence lines that hold
no `N`. -/
def acceptedReads (lines : List (List Char)) : List (List Char) :=
  ((sequenceLines lines).map readOf).filter (fun r => Char.ofNat 78 ∉ r)

/-- The accepted reads among lines that are numbered from `n + 1` on. -/
def acceptedReadsFrom (n : Nat) (lines : List (List Char)) : List (List Char) :=
  ((((lines.enumFrom n).filter (fun p => (p.1 + 1) % 4 = 2)).map Prod.snd).map readOf).filter
    (fun r => Char.ofNat 78 ∉ r)

/-- The length-8 substring of a read at a start offset, when the read has one. -/
def substringAt (read : List Char) (i : Nat) : Option (List Char) :=
  if i + KMER_LENGTH ≤ read.length then some ((read.drop i).take KMER_LENGTH) else none

/-- The start offsets of a read at which the length-8 substring is `s`. -/
def matchOffsets (read s : List Char) : List Nat :=
  (List.range read.length).filter (fun i => substringAt read i = some s)

/-- The text of a file whose lines are given without their terminators. -/
def streamOf : List (List Char) → List Char
  | [] => []
  | l :: ls => l ++ Char.ofNat 10 :: streamOf ls

/-- A whitespace character or the double quote. -/
def isSpaceOrQuote (c : Char) : Bool :=
  c.isWhitespace || c = Char.ofNat 34

/-- A string without its leading and its trailing characters that satisfy `p`. -/
def stripEnds (p : Char → Bool) (s : List Char) : List Char :=
  (s.dropWhile p).rdropWhile p

/-- The valid lines of a vocabulary source: trimmed length exactly 8. -/
def validLines (lines : List (List Char)) : List (List Char) :=
  lines.filter (fun l => decide ((trimLine l).length = KMER_LENGTH))

/-- The invalid lines of a vocabulary source: any other trimmed length. -/
def invalidLines (lines : List (List Char)) : List (List Char) :=
  lines.filter (fun l => decide ((trimLine l).length ≠ KMER_LENGTH))

/-- The lexicographic order on byte strings, a proper prefix being smaller. -/
def byteLexLe (a b : List Char) : Prop :=
  a = b ∨ List.Lex (fun x y : Char => x.toNat < y.toNat) a b

/-- The length of the first accepted read of an input, 0 when there is none. -/
def firstReadLength (lines : List (List Char)) : Nat :=
  ((acceptedReads lines).head?.map List.length).getD 0

/-- The length of the first accepted read that is not empty, 0 when there is
none. -/
def firstPositiveReadLength (lines : List (List Char)) : Nat :=
  (((acceptedReads lines).map List.length).find? (fun n => n != 0)).getD 0

/-- The store a normalised array is for a second normalisation: every count
has to be a number. -/
def finiteCounts : List NormalizedKmer → Option (List KmerCount)
  | [] => some []
  | e :: es =>
    match e.count, finiteCounts es with
    | some c, some ks => some ({ kmer := e.kmer, count := c } :: ks)
    | _, _ => none

/-- The vocabulary of Scenario A as a store: `AAAAAAAA` and `CCCCCCCC`, counts 0. -/
def scenarioStore : List KmerCount :=
  [{ kmer := "AAAAAAAA".toList, count := 0 }, { kmer := "CCCCCCCC".toList, count := 0 }]

/-- One FASTQ record whose read is `AAAAAAAAAA`. -/
def scenarioLines : List (List Char) :=
  ["@read1\n".toList, "AAAAAAAAAA\n".toList, "+\n".toList, "IIIIIIIIII\n".toList]

/-- A sequence line whose read `AAAAAAAANAAAAAAAA` holds an `N`. -/
def ambiguousLine : List Char :=
  "AAAAAAAANAAAAAAAA\n".toList

/-- A sequence line whose read `AAAAAAAAAC` has length 10. -/
def tenBaseLine : List Char :=
  "AAAAAAAAAC\n".toList

/-- The state in which `countKmersInFastq` starts on the store of Scenario A. -/
def scenarioStart : CountState :=
  { kmers := scenarioStore, totalKmers := 0, totalReads := 0, readLength := 0, lookups := [] }

/-- The lines of a FASTQ record with the read `AAAAAAAAAA`, without terminators. -/
def recordLines : List (List Char) :=
  ["@read1".toList, "AAAAAAAAAA".toList, "+".toList, "IIIIIIIIII".toList]

/-- The same read under another identifier, separator and quality line, the
last of which is a vocabulary k-mer with an `N` in front. -/
def otherRecordLines : List (List Char) :=
  ["@CCCCCCCC".toList, "AAAAAAAAAA".toList, "+read1".toList, "NCCCCCCCCC".toList]

/-- A vocabulary file holding the two lines `AAAAAAAA` and `CCCCCCCC`. -/
def scenarioVocabulary : List (List Char) :=
  ["AAAAAAAA\n".toList, "CCCCCCCC\n".toList]

/-- One FASTQ record whose read `GGGGGGGGGG` holds no vocabulary k-mer. -/
def unmatchedLines : List (List Char) :=
  ["@read1\n".toList, "GGGGGGGGGG\n".toList, "+\n".toList, "IIIIIIIIII\n".toList]

/-- A vocabulary file holding the single line `AAAAAAA`, of length 7. -/
def shortVocabulary : List (List Char) :=
  ["AAAAAAA\n".toList]

/-- A vocabulary file mixing two valid lines, one of them quoted and padded,
with a line of length 7 and an empty line. -/
def mixedVocabulary : List (List Char) :=
  ["CCCCCCCC\n".toList, "AAAAAAA\n".toList,
    [Char.ofNat 32, Char.ofNat 32, Char.ofNat 34] ++ "AAAAAAAA".toList ++
      [Char.ofNat 34, Char.ofNat 32, Char.ofNat 10],
    "\n".toList]

/-- A vocabulary line `AAAAAAAA` ending in carriage return and newline. -/
def crVocabularyLine : List Char :=
  "AAAAAAAA\r\n".toList

/-- The vocabulary line of Scenario C: two spaces, a quote, `AAAAAAAA`, a
quote, a space. -/
def quotedVocabularyLine : List Char :=
  [Char.ofNat 32, Char.ofNat 32, Char.ofNat 34] ++ "AAAAAAAA".toList ++
    [Char.ofNat 34, Char.ofNat 32]

/-- Two FASTQ records: the first read is empty, the second is `ACGT`. -/
def emptyFirstReadLines : List (List Char) :=
  ["@read1\n".toList, "\n".toList, "+\n".toList, "\n".toList,
    "@read2\n".toList, "ACGT\n".toList, "+\n".toList, "IIII\n".toList]

/-- Three FASTQ records: a read with an `N`, the read `AAAAAAAAAA` of length
10, and the read `ACGT` of length 4. -/
def variedLines : List (List Char) :=
  ["@read1\n".toList, "ANA\n".toList, "+\n".toList, "III\n".toList,
    "@read2\n".toList, "AAAAAAAAAA\n".toList, "+\n".toList, "IIIIIIIIII\n".toList,
    "@read3\n".toList, "ACGT\n".toList, "+\n".toList, "IIII\n".toList]

/-- A vocabulary file with the lines `CCCCCCCC`, `AAAAAAAA`, `CCCCCCCC`. -/
def duplicateVocabulary : List (List Char) :=
  ["CCCCCCCC\n".toList, "AAAAAAAA\n".toList, "CCCCCCCC\n".toList]

/-- The lines of `duplicateVocabulary` in another order. -/
def permutedVocabulary : List (List Char) :=
  ["AAAAAAAA\n".toList, "CCCCCCCC\n".toList, "CCCCCCCC\n".toList]

/-- The store holding the single sequence `AAAAAAAA`, count 0. -/
def polyAStore : List KmerCount :=
  [{ kmer := "AAAAAAAA".toList, count := 0 }]

/-- The read made of 150 times `A`; it has 143 windows, all `AAAAAAAA`. -/
def polyARead : List Char :=
  List.replicate 150 (Char.ofNat 65)

/-- A FASTQ record whose read is `polyARead`. -/
def polyARecord : List (List Char) :=
  ["@read\n".toList, polyARead ++ [Char.ofNat 10], "+\n".toList,
    List.replicate 150 (Char.ofNat 73) ++ [Char.ofNat 10]]

/-- The input made of `n` copies of the record `polyARecord`. -/
def polyAInput : Nat → List (List Char)
  | 0 => []
  | n + 1 => polyARecord ++ polyAInput n

/-- A sorted store with the sequences `AAAAAAAA`, `CCCCCCCC`, `GGGGGGGG`. -/
def threeStore : List KmerCount :=
  [{ kmer := "AAAAAAAA".toList, count := 0 }, { kmer := "CCCCCCCC".toList, count := 0 },
    { kmer := "GGGGGGGG".toList, count := 0 }]

/-- Three FASTQ records whose reads hold one window `AAAAAAAA`, four windows
`CCCCCCCC` and one window `GGGGGGGG`. -/
def oneFourOneLines : List (List Char) :=
  ["@read1\n".toList, "AAAAAAAA\n".toList, "+\n".toList, "IIIIIIII\n".toList,
    "@read2\n".toList, "CCCCCCCCCCC\n".toList, "+\n".toList, "IIIIIIIIIII\n".toList,
    "@read3\n".toList, "GGGGGGGG\n".toList, "+\n".toList, "IIIIIIII\n".toList]

/-! ## Properties of `strcmp` and of the binary search -/

theorem toNat_ne_of_ne {a b : Char} (h : a ≠ b) : (a.toNat : Int) ≠ (b.toNat : Int) := by
  intro hh
  apply h
  have : a.toNat = b.toNat := by exact_mod_cast hh
  exact Char.ext (UInt32.ext this)

theorem strcmp_self (a : List Char) : strcmp a a = 0 := by
  induction a with
  | nil => rfl
  | cons x xs ih => simp [strcmp, ih]

theorem strcmp_eq_zero {a b : List Char} (h : strcmp a b = 0) : a = b := by
  induction a generalizing b with
  | nil => cases b with
    | nil => rfl
    | cons y ys => simp [strcmp] at h
  | cons x xs ih => cases b with
    | nil => simp [strcmp] at h
    | cons y ys =>
      by_cases hxy : x = y
      · subst hxy
        simp [strcmp] at h
        rw [ih h]
      · simp [strcmp, hxy] at h
        exact absurd (by omega) (toNat_ne_of_ne hxy)

theorem strcmp_swap_neg {a b : List Char} (h : strcmp a b < 0) : 0 < strcmp b a := by
  induction a generalizing b with
  | nil => cases b with
    | nil => simp [strcmp] at h
    | cons y ys => simp [strcmp]
  | cons x xs ih => cases b with
    | nil => simp [strcmp] at h
    | cons y ys =>
      by_cases hxy : x = y
      · subst hxy
        simp [strcmp] at h ⊢
        exact ih h
      · have hyx : ¬ y = x := fun e => hxy e.symm
        simp [strcmp, hxy, hyx] at h ⊢
        omega

theorem strcmp_swap_pos {a b : List Char} (h : 0 < strcmp a b) : strcmp b a < 0 := by
  induction a generalizing b with
  | nil => cases b with
    | nil => simp [strcmp] at h
    | cons y ys => simp [strcmp] at h
  | cons x xs ih => cases b with
    | nil => simp [strcmp]
    | cons y ys =>
      by_cases hxy : x = y
      · subst hxy
        simp [strcmp] at h ⊢
        exact ih h
      · have hyx : ¬ y = x := fun e => hxy e.symm
        simp [strcmp, hxy, hyx] at h ⊢
        omega

theorem strcmp_lt_of_lt_of_le {a b c : List Char} (h1 : strcmp a b < 0) (h2 : strcmp b c ≤ 0) :
    strcmp a c < 0 := by
  induction a generalizing b c with
  | nil =>
    cases b with
    | nil => simp [strcmp] at h1
    | cons y ys =>
      cases c with
      | nil => simp [strcmp] at h2
      | cons z zs => simp [strcmp]
  | cons x xs ih =>
    cases b with
    | nil => simp [strcmp] at h1
    | cons y ys =>
      cases c with
      | nil => simp [strcmp] at h2
      | cons z zs =>
        by_cases hxy : x = y
        · subst hxy
          by_cases hxz : x = z
          · subst hxz
            simp [strcmp] at h1 h2 ⊢
            exact ih h1 h2
          · simp [strcmp, hxz] at h1 h2 ⊢
            have := toNat_ne_of_ne hxz
            omega
        · by_cases hyz : y = z
          · subst hyz
            simp [strcmp, hxy] at h1 h2 ⊢
            omega
          · simp [strcmp, hxy, hyz] at h1 h2
            have hxz : ¬ x = z := by
              intro e
              subst e
              omega
            simp [strcmp, hxz]
            have := toNat_ne_of_ne hyz
            omega

theorem strcmp_lt_of_le_of_lt {a b c : List Char} (h1 : strcmp a b ≤ 0) (h2 : strcmp b c < 0) :
    strcmp a c < 0 := by
  rcases lt_or_eq_of_le h1 with h | h
  · exact strcmp_lt_of_lt_of_le h (Int.le_of_lt h2)
  · rw [strcmp_eq_zero h]
    exact h2

theorem strcmp_ne_zero_of_neg {a b : List Char} (h : strcmp a b < 0) : strcmp b a ≠ 0 := by
  have := strcmp_swap_neg h
  omega

theorem sorted_getElem {kmers : List KmerCount} (hs : StoreSorted kmers) {i j : Nat}
    {a b : KmerCount} (hij : i < j) (ha : kmers[i]? = some a) (hb : kmers[j]? = some b) :
    kmerLe a b := by
  obtain ⟨hi, rfl⟩ := List.getElem?_eq_some.mp ha
  obtain ⟨hj, rfl⟩ := List.getElem?_eq_some.mp hb
  exact (List.pairwise_iff_getElem.mp hs) i j hi hj hij

theorem bsearchLoop_some {key : KmerCount} {kmers : List KmerCount} :
    ∀ (fuel l u i : Nat), bsearchLoop key kmers fuel l u = some i →
      l ≤ i ∧ i < u ∧ ∃ e, kmers[i]? = some e ∧ compareKmers key e = 0 := by
  intro fuel
  induction fuel with
  | zero => intro l u i h; simp [bsearchLoop] at h
  | succ n ih =>
    intro l u i h
    unfold bsearchLoop at h
    by_cases hlu : l < u
    · simp only [hlu, if_true] at h
      cases hget : kmers[(l + u) / 2]? with
      | none => simp [hget] at h
      | some e =>
        simp only [hget] at h
        by_cases h1 : compareKmers key e < 0
        · simp only [h1, if_true] at h
          have := ih _ _ _ h
          exact ⟨by omega, by omega, this.2.2⟩
        · by_cases h2 : compareKmers key e > 0
          · simp only [h1, h2, if_true, if_false] at h
            have := ih _ _ _ h
            exact ⟨by omega, by omega, this.2.2⟩
          · simp only [h1, h2, if_false, Option.some.injEq] at h
            subst h
            exact ⟨by omega, by omega, e, hget, by omega⟩
    · simp [hlu] at h

theorem bsearchLoop_none {key : KmerCount} {kmers : List KmerCount} (hs : StoreSorted kmers) :
    ∀ (fuel l u : Nat), u ≤ kmers.length → u - l < fuel →
      bsearchLoop key kmers fuel l u = none →
      ∀ i e, l ≤ i → i < u → kmers[i]? = some e → compareKmers key e ≠ 0 := by
  intro fuel
  induction fuel with
  | zero => intro l u _ hf; omega
  | succ n ih =>
    intro l u hu hf h i e hli hiu hie
    unfold bsearchLoop at h
    have hlu : l < u := by omega
    simp only [hlu, if_true] at h
    have hidx : (l + u) / 2 < kmers.length := by omega
    cases hget : kmers[(l + u) / 2]? with
    | none =>
      have := List.getElem?_eq_none_iff.mp hget
      omega
    | some m =>
      simp only [hget] at h
      by_cases h1 : compareKmers key m < 0
      · simp only [h1, if_true] at h
        by_cases hi : i < (l + u) / 2
        · exact ih l _ (by omega) (by omega) h i e hli hi hie
        · have hme : strcmp key.kmer e.kmer < 0 := by
            by_cases hieq : i = (l + u) / 2
            · subst hieq
              rw [hie] at hget
              cases hget
              exact h1
            · exact strcmp_lt_of_lt_of_le h1 (sorted_getElem hs (by omega) hget hie)
          unfold compareKmers
          omega
      · by_cases h2 : compareKmers key m > 0
        · simp only [h1, h2, if_true, if_false] at h
          by_cases hi : (l + u) / 2 < i
          · exact ih _ u hu (by omega) h i e (by omega) hiu hie
          · have hme : strcmp e.kmer key.kmer < 0 := by
              have hmk : strcmp m.kmer key.kmer < 0 := strcmp_swap_pos h2
              by_cases hieq : i = (l + u) / 2
              · subst hieq
                rw [hie] at hget
                cases hget
                exact hmk
              · exact strcmp_lt_of_le_of_lt (sorted_getElem hs (by omega) hie hget) hmk
            exact strcmp_ne_zero_of_neg hme
        · simp [h1, h2] at h

theorem findKmer_some {kmers : List KmerCount} {kmer : List Char} {i : Nat}
    (h : findKmer kmers kmer = some i) :
    ∃ e, kmers[i]? = some e ∧ e.kmer = kmer.take KMER_LENGTH := by
  obtain ⟨_, _, e, he, hc⟩ := bsearchLoop_some _ _ _ _ h
  exact ⟨e, he, (strcmp_eq_zero hc).symm⟩

theorem findKmer_none {kmers : List KmerCount} (hs : StoreSorted kmers) {kmer : List Char}
    (h : findKmer kmers kmer = none) :
    ∀ e ∈ kmers, e.kmer ≠ kmer.take KMER_LENGTH := by
  intro e he heq
  obtain ⟨i, hi, hie⟩ := List.getElem_of_mem he
  have hie2 : kmers[i]? = some e := by
    rw [List.getElem?_eq_getElem hi, hie]
  refine bsearchLoop_none hs _ 0 kmers.length (Nat.le_refl _) (by omega) h i e (Nat.zero_le _) hi hie2 ?_
  unfold compareKmers
  rw [heq]
  exact strcmp_self _

/-- C4: on a store sorted ascending by sequence and a candidate of length 8,
`findKmer` returns an entry exactly when some entry has the candidate as its
sequence, the entry it returns has exactly that sequence, and it returns no
match when the candidate is absent, in particular on the empty store. -/
theorem findKmer_exact_match (kmers : List KmerCount) (candidate : List Char)
    (hs : StoreSorted kmers) (hlen : candidate.length = KMER_LENGTH) :
    ((∃ i, findKmer kmers candidate = some i) ↔ ∃ e ∈ kmers, e.kmer = candidate) ∧
    (∀ i, findKmer kmers candidate = some i →
      ∃ e, kmers[i]? = some e ∧ e.kmer = candidate) ∧
    ((∀ e ∈ kmers, e.kmer ≠ candidate) → findKmer kmers candidate = none) ∧
    findKmer [] candidate = none := by
  have htake : candidate.take KMER_LENGTH = candidate := by
    rw [← hlen]
    exact List.take_length candidate
  have hsome : ∀ i, findKmer kmers candidate = some i →
      ∃ e, kmers[i]? = some e ∧ e.kmer = candidate := by
    intro i hi
    obtain ⟨e, he, hk⟩ := findKmer_some hi
    exact ⟨e, he, hk.trans htake⟩
  have hnone : (∀ e ∈ kmers, e.kmer ≠ candidate) → findKmer kmers candidate = none := by
    intro habs
    cases hf : findKmer kmers candidate with
    | none => rfl
    | some i =>
      obtain ⟨e, he, hk⟩ := hsome i hf
      exact absurd hk (habs e (List.getElem?_mem he))
  refine ⟨⟨?_, ?_⟩, hsome, hnone, rfl⟩
  · rintro ⟨i, hi⟩
    obtain ⟨e, he, hk⟩ := hsome i hi
    exact ⟨e, List.getElem?_mem he, hk⟩
  · rintro ⟨e, he, hk⟩
    cases hf : findKmer kmers candidate with
    | some i => exact ⟨i, rfl⟩
    | none =>
      have := findKmer_none hs hf e he
      rw [htake] at this
      exact absurd hk this

/-- C4 at the store of Scenario A and the candidate `CCCCCCCC`. -/
theorem findKmer_exact_match_witness :
    StoreSorted scenarioStore ∧ "CCCCCCCC".toList.length = KMER_LENGTH ∧
    (((∃ i, findKmer scenarioStore "CCCCCCCC".toList = some i) ↔
        ∃ e ∈ scenarioStore, e.kmer = "CCCCCCCC".toList) ∧
      (∀ i, findKmer scenarioStore "CCCCCCCC".toList = some i →
        ∃ e, scenarioStore[i]? = some e ∧ e.kmer = "CCCCCCCC".toList) ∧
      ((∀ e ∈ scenarioStore, e.kmer ≠ "CCCCCCCC".toList) →
        findKmer scenarioStore "CCCCCCCC".toList = none) ∧
      findKmer [] "CCCCCCCC".toList = none) :=
  ⟨by decide, by decide, findKmer_exact_match scenarioStore "CCCCCCCC".toList (by decide) (by decide)⟩

/-! ## The effect of counting on the store -/

theorem storeSorted_map_count (g : KmerCount → ℚ) {kmers : List KmerCount}
    (hs : StoreSorted kmers) :
    StoreSorted (kmers.map (fun e => { e with count := g e })) := by
  unfold StoreSorted at hs ⊢
  rw [List.pairwise_map]
  exact hs

theorem keys_map_count (g : KmerCount → ℚ) (kmers : List KmerCount) :
    (kmers.map (fun e => ({ e with count := g e } : KmerCount))).map (fun e => e.kmer) =
      kmers.map (fun e => e.kmer) := by
  rw [List.map_map]
  rfl

theorem incrAt_eq_map {w : List Char} :
    ∀ (kmers : List KmerCount) (i : Nat) (e : KmerCount),
      (kmers.map (fun x => x.kmer)).Nodup → kmers[i]? = some e → e.kmer = w →
      incrAt kmers i =
        kmers.map (fun x => { x with count := x.count + if x.kmer = w then 1 else 0 }) := by
  intro kmers
  induction kmers with
  | nil => intro i e _ h; simp at h
  | cons x xs ih =>
    intro i e hnd hget hw
    rw [List.map_cons, List.nodup_cons] at hnd
    cases i with
    | zero =>
      simp only [List.getElem?_cons_zero, Option.some.injEq] at hget
      subst hget
      simp only [incrAt, List.map_cons, hw, if_true]
      congr 1
      symm
      refine (List.map_congr_left ?_).trans (List.map_id xs)
      intro y hy
      have hne : y.kmer ≠ w := by
        intro hyw
        apply hnd.1
        rw [hw, ← hyw]
        exact List.mem_map_of_mem _ hy
      simp [hne]
    | succ j =>
      simp only [List.getElem?_cons_succ] at hget
      have hne : x.kmer ≠ w := by
        intro hxw
        apply hnd.1
        rw [hxw, ← hw]
        exact List.mem_map_of_mem _ (List.getElem?_mem hget)
      simp only [incrAt, List.map_cons, hne, if_false, add_zero]
      rw [ih j e hnd.2 hget hw]

theorem map_bump_absent {w : List Char} (kmers : List KmerCount)
    (h : ∀ e ∈ kmers, e.kmer ≠ w) :
    kmers.map (fun x => { x with count := x.count + if x.kmer = w then 1 else 0 }) = kmers := by
  refine (List.map_congr_left ?_).trans (List.map_id kmers)
  intro y hy
  simp [h y hy]

theorem take_window (line : List Char) (i : Nat) :
    ((line.drop i).take KMER_LENGTH).take KMER_LENGTH = (line.drop i).take KMER_LENGTH := by
  rw [List.take_take, Nat.min_self]

theorem countWindow_kmers (line : List Char) (st : CountState) (i : Nat)
    (hs : StoreSorted st.kmers) (hnd : (st.kmers.map (fun x => x.kmer)).Nodup) :
    (countWindow line st i).kmers =
      st.kmers.map (fun x =>
        { x with count := x.count + if x.kmer = (line.drop i).take KMER_LENGTH then 1 else 0 }) := by
  unfold countWindow
  simp only
  cases hf : findKmer st.kmers ((line.drop i).take KMER_LENGTH) with
  | none =>
    simp only
    have := findKmer_none hs hf
    rw [take_window] at this
    exact (map_bump_absent st.kmers this).symm
  | some idx =>
    simp only
    obtain ⟨e, he, hk⟩ := findKmer_some hf
    rw [take_window] at hk
    exact incrAt_eq_map st.kmers idx e hnd he hk

theorem acceptedReads_eq_from (lines : List (List Char)) :
    acceptedReads lines = acceptedReadsFrom 0 lines := rfl

theorem acceptedReadsFrom_nil (n : Nat) : acceptedReadsFrom n [] = [] := rfl

theorem acceptedReadsFrom_cons (n : Nat) (buf : List Char) (rest : List (List Char)) :
    acceptedReadsFrom n (buf :: rest) =
      if (n + 1) % 4 = 2 then
        (if Char.ofNat 78 ∈ readOf buf then acceptedReadsFrom (n + 1) rest
         else readOf buf :: acceptedReadsFrom (n + 1) rest)
      else acceptedReadsFrom (n + 1) rest := by
  unfold acceptedReadsFrom
  by_cases h : (n + 1) % 4 = 2
  · by_cases hN : Char.ofNat 78 ∈ readOf buf
    · simp [List.enumFrom, List.filter_cons, h, hN]
    · simp [List.enumFrom, List.filter_cons, h, hN]
  · simp [List.enumFrom, List.filter_cons, h]

theorem countLoop_eq_foldl :
    ∀ (lines : List (List Char)) (n : Nat) (st : CountState),
      countLoop lines n st = (acceptedReadsFrom n lines).foldl acceptRead st := by
  intro lines
  induction lines with
  | nil => intro n st; rfl
  | cons buf rest ih =>
    intro n st
    rw [acceptedReadsFrom_cons]
    unfold countLoop
    by_cases h : (n + 1) % 4 = 2
    · simp only [h, if_true]
      rw [ih]
      unfold processSequenceLine
      by_cases hN : Char.ofNat 78 ∈ readOf buf
      · have hN2 := hN
        unfold readOf at hN2
        simp only [hN, hN2, if_true]
      · have hN2 := hN
        unfold readOf at hN2
        simp only [hN, hN2, if_false, List.foldl_cons]
        rfl
    · simp only [h, if_false]
      exact ih _ _

theorem countKmersInFastq_eq_foldl (lines : List (List Char)) (kmers : List KmerCount) :
    countKmersInFastq lines kmers =
      (acceptedReads lines).foldl acceptRead
        { kmers := kmers, totalKmers := 0, totalReads := 0, readLength := 0, lookups := [] } := by
  unfold countKmersInFastq
  rw [countLoop_eq_foldl, acceptedReads_eq_from]

theorem filter_lt_range (n : Nat) : ∀ (L : Nat), n ≤ L →
    (List.range L).filter (fun i => decide (i < n)) = List.range n := by
  intro L
  induction L with
  | zero => intro h; simp [Nat.le_zero.mp h]
  | succ L ih =>
    intro h
    rw [List.range_succ, List.filter_append]
    by_cases hn : n ≤ L
    · rw [ih hn]
      have : ¬ L < n := by omega
      simp [this]
    · have hn2 : n = L + 1 := by omega
      subst hn2
      have h1 : (List.range L).filter (fun i => decide (i < L + 1)) = List.range L := by
        apply List.filter_eq_self.mpr
        intro a ha
        have := List.mem_range.mp ha
        simp
        omega
      rw [h1, List.range_succ]
      simp

theorem windowCount_eq (line : List Char) : 
    ((line.length : Int) - (KMER_LENGTH : Int) + 1).toNat = line.length + 1 - KMER_LENGTH := by
  unfold KMER_LENGTH
  omega

theorem matchOffsets_eq (line s : List Char) :
    matchOffsets line s =
      (List.range (line.length + 1 - KMER_LENGTH)).filter
        (fun i => decide ((line.drop i).take KMER_LENGTH = s)) := by
  unfold matchOffsets
  rw [← filter_lt_range (line.length + 1 - KMER_LENGTH) line.length (by unfold KMER_LENGTH; omega),
    List.filter_filter]
  apply List.filter_congr
  intro i _
  unfold substringAt
  by_cases h : i + KMER_LENGTH ≤ line.length
  · have h2 : i < line.length + 1 - KMER_LENGTH := by omega
    simp [h, h2]
  · have h2 : ¬ i < line.length + 1 - KMER_LENGTH := by omega
    simp [h, h2]

theorem foldl_countWindow_kmers (line : List Char) :
    ∀ (m : Nat) (st : CountState), StoreSorted st.kmers →
      (st.kmers.map (fun x => x.kmer)).Nodup →
      ((List.range m).foldl (countWindow line) st).kmers =
        st.kmers.map (fun x => { x with count := x.count +
          (((List.range m).filter
            (fun i => decide ((line.drop i).take KMER_LENGTH = x.kmer))).length : ℕ) }) := by
  intro m
  induction m with
  | zero =>
    intro st _ _
    simp only [List.range_zero, List.foldl_nil, List.filter_nil, List.length_nil,
      Nat.cast_zero, add_zero]
    exact (List.map_id st.kmers).symm
  | succ m ih =>
    intro st hs hnd
    rw [List.range_succ, List.foldl_append, List.foldl_cons, List.foldl_nil]
    have hk := ih st hs hnd
    rw [countWindow_kmers line _ m (by rw [hk]; exact storeSorted_map_count _ hs)
      (by rw [hk, keys_map_count]; exact hnd), hk, List.map_map]
    apply List.map_congr_left
    intro x _
    simp only [Function.comp, List.filter_append, List.length_append]
    by_cases hx : (line.drop m).take KMER_LENGTH = x.kmer
    · simp [hx, List.filter_cons, add_assoc]
    · have hx2 : ¬ x.kmer = (line.drop m).take KMER_LENGTH := fun e => hx e.symm
      simp [hx, hx2, List.filter_cons]

theorem windowLoop_kmers (line : List Char) (st : CountState) (hs : StoreSorted st.kmers)
    (hnd : (st.kmers.map (fun x => x.kmer)).Nodup) :
    (windowLoop line st).kmers =
      st.kmers.map (fun x =>
        { x with count := x.count + ((matchOffsets line x.kmer).length : ℕ) }) := by
  unfold windowLoop
  simp only
  rw [windowCount_eq, foldl_countWindow_kmers line _ st hs hnd]
  apply List.map_congr_left
  intro x _
  rw [matchOffsets_eq]

theorem acceptRead_kmers (line : List Char) (st : CountState) (hs : StoreSorted st.kmers)
    (hnd : (st.kmers.map (fun x => x.kmer)).Nodup) :
    (acceptRead st line).kmers =
      st.kmers.map (fun x =>
        { x with count := x.count + ((matchOffsets line x.kmer).length : ℕ) }) := by
  unfold acceptRead
  simp only
  split
  · exact windowLoop_kmers line _ hs hnd
  · exact windowLoop_kmers line _ hs hnd

theorem foldl_acceptRead_kmers :
    ∀ (reads : List (List Char)) (st : CountState), StoreSorted st.kmers →
      (st.kmers.map (fun x => x.kmer)).Nodup →
      (reads.foldl acceptRead st).kmers =
        st.kmers.map (fun x => { x with count := x.count +
          ((reads.map (fun r => (matchOffsets r x.kmer).length)).sum : ℕ) }) := by
  intro reads
  induction reads with
  | nil =>
    intro st _ _
    simp only [List.foldl_nil, List.map_nil, List.sum_nil, Nat.cast_zero, add_zero]
    exact (List.map_id st.kmers).symm
  | cons r rs ih =>
    intro st hs hnd
    rw [List.foldl_cons]
    have hk := acceptRead_kmers r st hs hnd
    rw [ih _ (by rw [hk]; exact storeSorted_map_count _ hs)
      (by rw [hk, keys_map_count]; exact hnd), hk, List.map_map]
    apply List.map_congr_left
    intro x _
    simp only [Function.comp, List.map_cons, List.sum_cons, Nat.cast_add, add_assoc]

theorem foldl_add_count (kmers : List KmerCount) :
    ∀ (a : ℚ), kmers.foldl (fun total e => total + e.count) a =
      a + (kmers.map (fun e => e.count)).sum := by
  induction kmers with
  | nil => intro a; simp
  | cons x xs ih =>
    intro a
    rw [List.foldl_cons, ih, List.map_cons, List.sum_cons, add_assoc]

theorem totalOccurrences_eq_sum (kmers : List KmerCount) :
    totalOccurrences kmers = (kmers.map (fun e => e.count)).sum := by
  unfold totalOccurrences
  rw [foldl_add_count, zero_add]

theorem sum_rescaled (kmers : List KmerCount) (f t : ℚ) :
    (kmers.map (fun e => e.count * f / t)).sum = (kmers.map (fun e => e.count)).sum * f / t := by
  induction kmers with
  | nil => simp
  | cons x xs ih =>
    rw [List.map_cons, List.sum_cons, ih, List.map_cons, List.sum_cons]
    ring

theorem normalizeCounts_of_ne_zero (kmers : List KmerCount) (h : totalOccurrences kmers ≠ 0) :
    normalizeCounts kmers =
      kmers.map (fun e =>
        { kmer := e.kmer, count := some (e.count * 4 ^ 8 / totalOccurrences kmers) }) := by
  unfold normalizeCounts fdiv normalizationFactor KMER_LENGTH
  simp only [h, if_false]

/-- C2: when the total raw count is greater than zero, the normalisation step
of `main` replaces each count by `count * 4^8 / total`, and the rescaled counts
sum to `4^8 = 65536` (in exact arithmetic). -/
theorem normalizeCounts_sum (kmers : List KmerCount) (h : 0 < totalOccurrences kmers) :
    normalizeCounts kmers =
      kmers.map (fun e =>
        { kmer := e.kmer, count := some (e.count * 4 ^ 8 / totalOccurrences kmers) }) ∧
    (kmers.map (fun e => e.count * 4 ^ 8 / totalOccurrences kmers)).sum = 4 ^ 8 ∧
    (4 : ℚ) ^ 8 = 65536 := by
  refine ⟨normalizeCounts_of_ne_zero kmers (ne_of_gt h), ?_, by norm_num⟩
  rw [sum_rescaled, ← totalOccurrences_eq_sum]
  field_simp

/-- C2 on Scenario A: the raw counts 3 and 0 become 65536 and 0. -/
theorem normalizeCounts_sum_witness :
    0 < totalOccurrences (countKmersInFastq scenarioLines scenarioStore).kmers ∧
    (normalizeCounts (countKmersInFastq scenarioLines scenarioStore).kmers).map
      (fun e => e.count) = [some 65536, some 0] ∧
    ((countKmersInFastq scenarioLines scenarioStore).kmers.map
      (fun e => e.count * 4 ^ 8 /
        totalOccurrences (countKmersInFastq scenarioLines scenarioStore).kmers)).sum = 4 ^ 8 :=
  ⟨by decide!, by decide!,
    (normalizeCounts_sum (countKmersInFastq scenarioLines scenarioStore).kmers (by decide!)).2.1⟩

/-- C3: the code at a run whose total is zero.  The vocabulary `AAAAAAAA`,
`CCCCCCCC` and a single read `GGGGGGGGGG` leave every raw count at 0, the total
is 0, and the normalisation step writes a non-number into every entry instead
of keeping the zero; nothing is reported. -/
theorem normalizeCounts_zero_total :
    (countKmersInFastq unmatchedLines (loadKmers scenarioVocabulary).kmers).kmers =
      [{ kmer := "AAAAAAAA".toList, count := 0 }, { kmer := "CCCCCCCC".toList, count := 0 }] ∧
    totalOccurrences
      (countKmersInFastq unmatchedLines (loadKmers scenarioVocabulary).kmers).kmers = 0 ∧
    normalizeCounts (countKmersInFastq unmatchedLines (loadKmers scenarioVocabulary).kmers).kmers =
      [{ kmer := "AAAAAAAA".toList, count := none }, { kmer := "CCCCCCCC".toList, count := none }] ∧
    (loadKmers scenarioVocabulary).stderr = [] := by
  decide!

/-! ## Loading the vocabulary -/

theorem strcmp_le_iff_lex : ∀ (a b : List Char),
    strcmp a b < 0 ↔ List.Lex (fun x y : Char => x.toNat < y.toNat) a b := by
  intro a
  induction a with
  | nil =>
    intro b
    cases b with
    | nil => simp [strcmp]
    | cons y ys => simp [strcmp, List.Lex.nil]
  | cons x xs ih =>
    intro b
    cases b with
    | nil => simp [strcmp]
    | cons y ys =>
      by_cases hxy : x = y
      · subst hxy
        simp only [strcmp, if_true, ih]
        constructor
        · intro h
          exact List.Lex.cons h
        · intro h
          cases h with
          | cons h => exact h
          | rel h => exact absurd h (Nat.lt_irrefl _)
      · simp only [strcmp, hxy, if_false]
        constructor
        · intro h
          exact List.Lex.rel (by omega)
        · intro h
          cases h with
          | cons h => exact absurd rfl hxy
          | rel h => omega

theorem kmerLe_iff_byteLexLe (a b : KmerCount) : kmerLe a b ↔ byteLexLe a.kmer b.kmer := by
  unfold kmerLe compareKmers byteLexLe
  rw [← strcmp_le_iff_lex]
  constructor
  · intro h
    rcases lt_or_eq_of_le h with h1 | h1
    · exact Or.inr h1
    · exact Or.inl (strcmp_eq_zero h1)
  · rintro (h | h)
    · rw [h, strcmp_self]
    · exact le_of_lt h

theorem kmerLe_total (a b : KmerCount) : kmerLe a b ∨ kmerLe b a := by
  unfold kmerLe compareKmers
  by_cases h : strcmp a.kmer b.kmer ≤ 0
  · exact Or.inl h
  · exact Or.inr (le_of_lt (strcmp_swap_pos (by omega)))

theorem kmerLe_trans {a b c : KmerCount} (h1 : kmerLe a b) (h2 : kmerLe b c) : kmerLe a c := by
  unfold kmerLe compareKmers at *
  rcases lt_or_eq_of_le h1 with h | h
  · exact le_of_lt (strcmp_lt_of_lt_of_le h h2)
  · rw [strcmp_eq_zero h]
    exact h2

theorem qsort_sorted (kmers : List KmerCount) : StoreSorted (qsort kmers) := by
  haveI : IsTotal KmerCount kmerLe := ⟨kmerLe_total⟩
  haveI : IsTrans KmerCount kmerLe := ⟨fun _ _ _ => kmerLe_trans⟩
  exact List.sorted_insertionSort kmerLe kmers

theorem qsort_perm (kmers : List KmerCount) : (qsort kmers).Perm kmers :=
  List.perm_insertionSort kmerLe kmers

theorem foldl_countPass (lines : List (List Char)) :
    ∀ (st : Nat × List Diagnostic), lines.foldl countPass st =
      (st.1 + (validLines lines).length,
        st.2 ++ (invalidLines lines).map
          (fun l => Diagnostic.invalidLength (trimLine l) (trimLine l).length)) := by
  induction lines with
  | nil => intro st; simp [validLines, invalidLines]
  | cons l ls ih =>
    intro st
    rw [List.foldl_cons, ih]
    unfold countPass validLines invalidLines
    by_cases h : (trimLine l).length = KMER_LENGTH
    · simp [h, List.filter_cons]
      omega
    · simp [h, List.filter_cons]

theorem foldl_fillPass (lines : List (List Char)) :
    ∀ (st : List KmerCount × List Diagnostic), lines.foldl fillPass st =
      (st.1 ++ (validLines lines).map (fun l => { kmer := trimLine l, count := 0 }),
        st.2 ++ (invalidLines lines).map
          (fun l => Diagnostic.skipping (trimLine l) (trimLine l).length)) := by
  induction lines with
  | nil => intro st; simp [validLines, invalidLines]
  | cons l ls ih =>
    intro st
    rw [List.foldl_cons, ih]
    unfold fillPass validLines invalidLines
    by_cases h : (trimLine l).length = KMER_LENGTH
    · have ht : (trimLine l).take KMER_LENGTH = trimLine l := by
        rw [← h]
        exact List.take_length _
      simp [h, ht, List.filter_cons]
    · simp [h, List.filter_cons]

theorem loadKmers_eq (lines : List (List Char)) :
    loadKmers lines =
      { kmers := qsort ((validLines lines).map (fun l => { kmer := trimLine l, count := 0 })),
        kmerCount := (validLines lines).length,
        stderr :=
          (invalidLines lines).map
            (fun l => Diagnostic.invalidLength (trimLine l) (trimLine l).length) ++
          (invalidLines lines).map
            (fun l => Diagnostic.skipping (trimLine l) (trimLine l).length) } := by
  unfold loadKmers
  simp only [foldl_countPass, foldl_fillPass, List.nil_append, Nat.zero_add]
  congr 2
  rw [List.take_of_length_le]
  simp

theorem mem_validLines {lines : List (List Char)} {l : List Char} (h : l ∈ validLines lines) :
    (trimLine l).length = KMER_LENGTH := by
  unfold validLines at h
  simpa using (List.mem_filter.mp h).2

theorem mem_loadKmers {lines : List (List Char)} {e : KmerCount}
    (h : e ∈ (loadKmers lines).kmers) :
    ∃ l ∈ validLines lines, e = { kmer := trimLine l, count := 0 } := by
  rw [loadKmers_eq] at h
  have h2 := (qsort_perm _).mem_iff.mp h
  obtain ⟨l, hl, he⟩ := List.mem_map.mp h2
  exact ⟨l, hl, he.symm⟩

/-- C5: for every vocabulary source, every entry of the store `loadKmers`
returns has a sequence of length exactly 8 and the initial count 0, and the
store is sorted ascending in the lexicographic byte order of the sequences,
which is the order `compareKmers` tests. -/
theorem loadKmers_entries_sorted (lines : List (List Char)) :
    (∀ e ∈ (loadKmers lines).kmers, e.kmer.length = 8 ∧ e.count = 0) ∧
    (loadKmers lines).kmers.Pairwise (fun a b => byteLexLe a.kmer b.kmer) ∧
    StoreSorted (loadKmers lines).kmers := by
  have hs : StoreSorted (loadKmers lines).kmers := by
    rw [loadKmers_eq]
    exact qsort_sorted _
  refine ⟨?_, ?_, hs⟩
  · intro e he
    obtain ⟨l, hl, rfl⟩ := mem_loadKmers he
    exact ⟨mem_validLines hl, rfl⟩
  · exact List.Pairwise.imp (fun h => (kmerLe_iff_byteLexLe _ _).mp h) hs

/-- C5 on a vocabulary mixing valid and invalid lines. -/
theorem loadKmers_entries_sorted_witness :
    (∀ e ∈ (loadKmers mixedVocabulary).kmers, e.kmer.length = 8 ∧ e.count = 0) ∧
    (loadKmers mixedVocabulary).kmers.Pairwise (fun a b => byteLexLe a.kmer b.kmer) ∧
    StoreSorted (loadKmers mixedVocabulary).kmers ∧
    (loadKmers mixedVocabulary).kmers =
      [{ kmer := "AAAAAAAA".toList, count := 0 }, { kmer := "CCCCCCCC".toList, count := 0 }] :=
  ⟨(loadKmers_entries_sorted mixedVocabulary).1, (loadKmers_entries_sorted mixedVocabulary).2.1,
    (loadKmers_entries_sorted mixedVocabulary).2.2, by decide!⟩

/-- C6 as stated fails: a vocabulary with one invalid line (length 7) makes
`loadKmers` write two diagnostics, one in each pass, not one. -/
theorem loadKmers_diagnostics_counterexample :
    (validLines shortVocabulary).length = 0 ∧ (invalidLines shortVocabulary).length = 1 ∧
    (loadKmers shortVocabulary).stderr =
      [Diagnostic.invalidLength "AAAAAAA".toList 7, Diagnostic.skipping "AAAAAAA".toList 7] ∧
    ¬ ((loadKmers shortVocabulary).stderr.length = (invalidLines shortVocabulary).length) := by
  decide

/-- C6, amended: for a vocabulary source with N valid lines (trimmed length 8)
and M invalid lines, `loadKmers` yields a store of exactly N entries whose
sequences are the trimmed valid lines as a multiset, and writes exactly 2 M
diagnostics: the first pass reports every invalid line as an invalid length,
the second pass reports every one again as skipped.  A line of trimmed length
7 is not in the store. -/
theorem loadKmers_valid_invalid (lines : List (List Char)) :
    (loadKmers lines).kmers.length = (validLines lines).length ∧
    ((loadKmers lines).kmers.map (fun e => e.kmer)).Perm ((validLines lines).map trimLine) ∧
    (loadKmers lines).stderr =
      (invalidLines lines).map
          (fun l => Diagnostic.invalidLength (trimLine l) (trimLine l).length) ++
        (invalidLines lines).map
          (fun l => Diagnostic.skipping (trimLine l) (trimLine l).length) ∧
    (loadKmers lines).stderr.length = 2 * (invalidLines lines).length ∧
    (∀ l ∈ lines, (trimLine l).length = 7 →
      l ∈ invalidLines lines ∧ trimLine l ∉ (loadKmers lines).kmers.map (fun e => e.kmer)) := by
  have hp : (loadKmers lines).kmers.Perm
      ((validLines lines).map (fun l => { kmer := trimLine l, count := 0 })) := by
    rw [loadKmers_eq]
    exact qsort_perm _
  refine ⟨?_, ?_, ?_, ?_, ?_⟩
  · rw [hp.length_eq, List.length_map]
  · have := hp.map (fun e => e.kmer)
    rw [List.map_map] at this
    exact this
  · rw [loadKmers_eq]
  · rw [loadKmers_eq]
    simp only [List.length_append, List.length_map]
    omega
  · intro l hl h7
    constructor
    · unfold invalidLines
      rw [List.mem_filter]
      refine ⟨hl, ?_⟩
      simp [h7, KMER_LENGTH]
    · intro hmem
      obtain ⟨e, he, hk⟩ := List.mem_map.mp hmem
      obtain ⟨l2, hl2, rfl⟩ := mem_loadKmers he
      have := mem_validLines hl2
      simp only at hk
      rw [hk, h7] at this
      exact absurd this (by decide)

/-- C6, amended, on a vocabulary with two valid and two invalid lines: two
entries and four diagnostics. -/
theorem loadKmers_valid_invalid_witness :
    (validLines mixedVocabulary).length = 2 ∧ (invalidLines mixedVocabulary).length = 2 ∧
    (loadKmers mixedVocabulary).kmers.length = 2 ∧
    (loadKmers mixedVocabulary).stderr.length = 4 ∧
    (loadKmers mixedVocabulary).stderr.length = 2 * (invalidLines mixedVocabulary).length :=
  ⟨by decide, by decide, by decide, by decide, (loadKmers_valid_invalid mixedVocabulary).2.2.2.1⟩

theorem take_scanEnd (s : List Char) (c0 : Char) (h0 : s[0]? = some c0)
    (hc0 : isTrimChar c0 = false) :
    ∀ (e : Nat), e < s.length →
      s.take (scanEnd s e + 1) = (s.take (e + 1)).rdropWhile isTrimChar := by
  intro e
  induction e with
  | zero =>
    intro _
    rw [scanEnd, List.take_succ, h0]
    simp [List.rdropWhile_singleton, hc0]
  | succ e ih =>
    intro he
    have hget : s[e + 1]? = some s[e + 1] := List.getElem?_eq_getElem he
    have hD : s.getD (e + 1) (Char.ofNat 0) = s[e + 1] := by
      rw [List.getD_eq_getElem?_getD, hget]
      rfl
    rw [scanEnd, hD, List.take_succ (n := e + 1), hget]
    simp only [Option.toList_some]
    by_cases hp : isTrimChar s[e + 1] = true
    · rw [if_pos hp, List.rdropWhile_concat_pos _ _ _ hp]
      exact ih (by omega)
    · rw [if_neg hp, List.rdropWhile_concat_neg _ _ _ hp, List.take_succ (n := e + 1), hget]
      rfl

theorem trimLine_eq_stripEnds (buf : List Char) :
    trimLine buf = stripEnds isTrimChar (cstr buf) := by
  unfold trimLine stripEnds
  simp only
  generalize hd : (cstr buf).dropWhile isTrimChar = d
  cases hdl : d with
  | nil => simp
  | cons c cs =>
    have hc : isTrimChar c = false := by
      have := List.head_dropWhile_not isTrimChar (cstr buf) (by rw [hd, hdl]; simp)
      simpa [hd, hdl] using this
    simp only [List.length_cons]
    rw [take_scanEnd (c :: cs) c (by simp) hc cs.length (by simp)]
    rw [← List.length_cons c cs, List.take_length]

theorem rdropWhile_append_rtakeWhile (p : Char → Bool) (d : List Char) :
    d.rdropWhile p ++ d.rtakeWhile p = d := by
  unfold List.rdropWhile List.rtakeWhile
  rw [← List.reverse_append, List.takeWhile_append_dropWhile, List.reverse_reverse]

theorem loadKmers_single (buf : List Char) :
    ((trimLine buf).length = KMER_LENGTH →
      (loadKmers [buf]).kmers = [{ kmer := trimLine buf, count := 0 }]) ∧
    ((trimLine buf).length ≠ KMER_LENGTH → (loadKmers [buf]).kmers = []) := by
  constructor
  · intro h
    rw [loadKmers_eq]
    simp [validLines, h, qsort]
  · intro h
    rw [loadKmers_eq]
    simp [validLines, h, qsort]

/-- C7: the code on the vocabulary line `AAAAAAAA` ending in carriage return
and newline.  Without its leading and trailing whitespace and quotes the line
is `AAAAAAAA`, of length 8; the trimming loops of `loadKmers` step over the
newline and stop at the carriage return, so the string tested has length 9 and
the line is rejected: the store stays empty. -/
theorem trimLine_keeps_carriage_return :
    stripEnds isSpaceOrQuote (cstr crVocabularyLine) = "AAAAAAAA".toList ∧
    trimLine crVocabularyLine = "AAAAAAAA\r".toList ∧
    trimLine crVocabularyLine ≠ stripEnds isSpaceOrQuote (cstr crVocabularyLine) ∧
    (loadKmers [crVocabularyLine]).kmers = [] := by
  decide

/-- What the two trimming loops of `loadKmers` compute for a line: the line
without its leading and its trailing spaces, tabs, newlines and double quotes.
The line is a run of such characters, the string, and another run of such
characters, and the string neither starts nor ends with one.  A string of
length 8 is stored as it is, whatever its characters; any other length is
rejected. -/
theorem trimLine_strips (buf : List Char) :
    trimLine buf = stripEnds isTrimChar (cstr buf) ∧
    (∃ pre suf, cstr buf = pre ++ trimLine buf ++ suf ∧
      (∀ c ∈ pre, isTrimChar c = true) ∧ (∀ c ∈ suf, isTrimChar c = true)) ∧
    (∀ c, (trimLine buf).head? = some c → isTrimChar c = false) ∧
    (∀ c, (trimLine buf).getLast? = some c → isTrimChar c = false) ∧
    ((trimLine buf).length = KMER_LENGTH →
      (loadKmers [buf]).kmers = [{ kmer := trimLine buf, count := 0 }]) ∧
    ((trimLine buf).length ≠ KMER_LENGTH → (loadKmers [buf]).kmers = []) := by
  have heq := trimLine_eq_stripEnds buf
  refine ⟨heq, ?_, ?_, ?_, (loadKmers_single buf).1, (loadKmers_single buf).2⟩
  · refine ⟨(cstr buf).takeWhile isTrimChar,
      ((cstr buf).dropWhile isTrimChar).rtakeWhile isTrimChar, ?_, ?_, ?_⟩
    · rw [heq, stripEnds, List.append_assoc, rdropWhile_append_rtakeWhile,
        List.takeWhile_append_dropWhile]
    · intro c hc
      exact List.mem_takeWhile_imp hc
    · intro c hc
      exact List.mem_rtakeWhile_imp hc
  · intro c hc
    rw [heq, stripEnds] at hc
    generalize hd : (cstr buf).dropWhile isTrimChar = d at hc
    cases hdl : d with
    | nil =>
      rw [hdl] at hc
      simp at hc
    | cons x xs =>
      have hx : isTrimChar x = false := by
        have := List.head_dropWhile_not isTrimChar (cstr buf) (by rw [hd, hdl]; simp)
        simpa [hd, hdl] using this
      have hdec := rdropWhile_append_rtakeWhile isTrimChar d
      cases hr : d.rdropWhile isTrimChar with
      | nil =>
        rw [hr] at hc
        simp at hc
      | cons y ys =>
        rw [hr] at hc hdec
        rw [hdl] at hdec
        simp only [List.head?_cons, Option.some.injEq] at hc
        simp only [List.cons_append, List.cons.injEq] at hdec
        rw [← hc, hdec.1]
        exact hx
  · intro c hc
    rw [heq, stripEnds] at hc
    have hne : ((cstr buf).dropWhile isTrimChar).rdropWhile isTrimChar ≠ [] := by
      intro h
      rw [h] at hc
      simp at hc
    have := List.rdropWhile_last_not isTrimChar _ hne
    rw [List.getLast?_eq_getLast _ hne, Option.some.injEq] at hc
    rw [← hc]
    simpa using this

/-- The line of Scenario C: surrounded by spaces and quotes, `AAAAAAAA` is
accepted as the bare sequence. -/
theorem trimLine_strips_witness :
    trimLine quotedVocabularyLine = "AAAAAAAA".toList ∧
    (trimLine quotedVocabularyLine).length = KMER_LENGTH ∧
    (loadKmers [quotedVocabularyLine]).kmers =
      [{ kmer := trimLine quotedVocabularyLine, count := 0 }] :=
  ⟨by decide, by decide, (trimLine_strips quotedVocabularyLine).2.2.2.2.1 (by decide)⟩

/-! ## Reads that are skipped, and the lookups of a read that is not -/

theorem countLoop_cons (buf : List Char) (rest : List (List Char)) (n : Nat) (st : CountState) :
    countLoop (buf :: rest) n st =
      if (n + 1) % 4 = 2 then countLoop rest (n + 1) (processSequenceLine buf st)
      else countLoop rest (n + 1) st := rfl

theorem countLoop_append (a b : List (List Char)) :
    ∀ (n : Nat) (st : CountState),
      countLoop (a ++ b) n st = countLoop b (n + a.length) (countLoop a n st) := by
  induction a with
  | nil => intro n st; rfl
  | cons x xs ih =>
    intro n st
    have hn : n + (xs.length + 1) = n + 1 + xs.length := by omega
    rw [List.cons_append, List.length_cons, countLoop_cons, countLoop_cons, hn]
    split
    · rw [ih]
    · rw [ih]

theorem processSequenceLine_of_N (buf : List Char) (st : CountState)
    (hN : Char.ofNat 78 ∈ readOf buf) : processSequenceLine buf st = st := by
  unfold processSequenceLine
  unfold readOf at hN
  simp only [hN, if_true]

theorem processSequenceLine_of_not_N (buf : List Char) (st : CountState)
    (hN : Char.ofNat 78 ∉ readOf buf) :
    processSequenceLine buf st = acceptRead st (readOf buf) := by
  unfold processSequenceLine
  have hN2 := hN
  unfold readOf at hN2
  simp only [hN2, if_false]
  rfl

/-- C8: a sequence line (1-indexed number congruent to 2 modulo 4) whose read
holds an `N` is skipped as a whole: processing it leaves the state as it was
(no lookup, no count changed, `totalReads` not incremented), so the run goes on
from the state reached before the line; and an input of one record with such a
read ends with `totalReads = 0`, no lookup and the store untouched. -/
theorem ambiguous_read_excluded (pre post : List (List Char)) (buf : List Char)
    (kmers : List KmerCount) (hpos : (pre.length + 1) % 4 = 2)
    (hN : Char.ofNat 78 ∈ readOf buf) :
    (∀ st, processSequenceLine buf st = st) ∧
    countKmersInFastq (pre ++ buf :: post) kmers =
      countLoop post (pre.length + 1) (countKmersInFastq pre kmers) ∧
    (∀ ident sep qual, countKmersInFastq [ident, buf, sep, qual] kmers =
      { kmers := kmers, totalKmers := 0, totalReads := 0, readLength := 0, lookups := [] }) := by
  refine ⟨fun st => processSequenceLine_of_N buf st hN, ?_, ?_⟩
  · unfold countKmersInFastq
    rw [countLoop_append, Nat.zero_add, countLoop_cons, if_pos hpos,
      processSequenceLine_of_N buf _ hN]
  · intro ident sep qual
    simp [countKmersInFastq, countLoop, processSequenceLine_of_N buf _ hN]

/-- C8 on a record whose read `AAAAAAAANAAAAAAAA` holds two copies of the
vocabulary k-mer `AAAAAAAA` around an `N`: nothing is counted. -/
theorem ambiguous_read_excluded_witness :
    (1 + 1) % 4 = 2 ∧ Char.ofNat 78 ∈ readOf ambiguousLine ∧
    countKmersInFastq ["@read1\n".toList, ambiguousLine, "+\n".toList, "IIII\n".toList]
      scenarioStore = scenarioStart :=
  ⟨by decide, by decide,
    (ambiguous_read_excluded ["@read1\n".toList] [] ambiguousLine scenarioStore (by decide)
      (by decide)).2.2 "@read1\n".toList "+\n".toList "IIII\n".toList⟩

theorem countWindow_lookups (line : List Char) (st : CountState) (i : Nat) :
    (countWindow line st i).lookups = st.lookups ++ [(line.drop i).take KMER_LENGTH] := by
  unfold countWindow
  simp only
  split <;> rfl

theorem foldl_countWindow_lookups (line : List Char) :
    ∀ (m : Nat) (st : CountState),
      ((List.range m).foldl (countWindow line) st).lookups =
        st.lookups ++ (List.range m).map (fun i => (line.drop i).take KMER_LENGTH) := by
  intro m
  induction m with
  | zero => intro st; simp
  | succ m ih =>
    intro st
    rw [List.range_succ, List.foldl_append, List.foldl_cons, List.foldl_nil,
      countWindow_lookups, ih, List.map_append, List.append_assoc]
    rfl

theorem windowLoop_lookups (line : List Char) (st : CountState) :
    (windowLoop line st).lookups =
      st.lookups ++
        (List.range (line.length + 1 - KMER_LENGTH)).map
          (fun i => (line.drop i).take KMER_LENGTH) := by
  unfold windowLoop
  simp only
  rw [windowCount_eq, foldl_countWindow_lookups]

theorem windowLoop_short (line : List Char) (st : CountState) (h : line.length < KMER_LENGTH) :
    windowLoop line st = st := by
  unfold windowLoop
  simp only
  rw [windowCount_eq]
  have : line.length + 1 - KMER_LENGTH = 0 := by omega
  rw [this]
  rfl

theorem acceptRead_lookups (line : List Char) (st : CountState) :
    (acceptRead st line).lookups =
      st.lookups ++
        (List.range (line.length + 1 - KMER_LENGTH)).map
          (fun i => (line.drop i).take KMER_LENGTH) := by
  unfold acceptRead
  simp only
  rw [windowLoop_lookups]
  split <;> rfl

/-- C9: for a sequence line whose read holds no `N` and has length L, the
window loop performs exactly `max(0, L - 8 + 1)` lookups, on the length-8
substrings at the start offsets `0, 1, ..., L - 8` in this order; when `L < 8`
it performs none and changes no count. -/
theorem accepted_read_lookups (buf : List Char) (st : CountState)
    (hN : Char.ofNat 78 ∉ readOf buf) :
    (processSequenceLine buf st).lookups =
      st.lookups ++
        (List.range ((readOf buf).length + 1 - 8)).map
          (fun i => ((readOf buf).drop i).take 8) ∧
    (((processSequenceLine buf st).lookups.length : Int) =
      st.lookups.length + max 0 (((readOf buf).length : Int) - 8 + 1)) ∧
    (∀ i, i < (readOf buf).length + 1 - 8 →
      substringAt (readOf buf) i = some (((readOf buf).drop i).take 8) ∧
      (((readOf buf).drop i).take 8).length = 8) ∧
    ((readOf buf).length < 8 →
      (processSequenceLine buf st).lookups = st.lookups ∧
      (processSequenceLine buf st).kmers = st.kmers ∧
      (processSequenceLine buf st).totalKmers = st.totalKmers) := by
  rw [processSequenceLine_of_not_N buf st hN]
  have hl := acceptRead_lookups (readOf buf) st
  unfold KMER_LENGTH at hl
  refine ⟨hl, ?_, ?_, ?_⟩
  · rw [hl, List.length_append, List.length_map, List.length_range]
    omega
  · intro i hi
    have h8 : i + 8 ≤ (readOf buf).length := by omega
    constructor
    · unfold substringAt KMER_LENGTH
      rw [if_pos h8]
    · rw [List.length_take, List.length_drop]
      omega
  · intro hshort
    unfold acceptRead
    simp only
    rw [windowLoop_short _ _ (by unfold KMER_LENGTH; exact hshort)]
    split <;> exact ⟨rfl, rfl, rfl⟩

/-- C9 on the read `AAAAAAAAAC` of length 10: three lookups, at offsets 0, 1
and 2. -/
theorem accepted_read_lookups_witness :
    Char.ofNat 78 ∉ readOf tenBaseLine ∧
    (processSequenceLine tenBaseLine scenarioStart).lookups =
      ["AAAAAAAA".toList, "AAAAAAAA".toList, "AAAAAAAC".toList] ∧
    ((processSequenceLine tenBaseLine scenarioStart).lookups.length : Int) =
      scenarioStart.lookups.length + max 0 (((readOf tenBaseLine).length : Int) - 8 + 1) :=
  ⟨by decide, by decide, (accepted_read_lookups tenBaseLine scenarioStart (by decide)).2.1⟩

/-! ## Only the sequence lines are read -/

theorem acceptedReadsFrom_congr :
    ∀ (a b : List (List Char)) (n : Nat), a.length = b.length →
      (∀ i, (n + i + 1) % 4 = 2 → a[i]? = b[i]?) →
      acceptedReadsFrom n a = acceptedReadsFrom n b := by
  intro a
  induction a with
  | nil =>
    intro b n hlen _
    cases b with
    | nil => rfl
    | cons y ys => simp at hlen
  | cons x xs ih =>
    intro b n hlen hag
    cases b with
    | nil => simp at hlen
    | cons y ys =>
      have htail : acceptedReadsFrom (n + 1) xs = acceptedReadsFrom (n + 1) ys := by
        apply ih ys (n + 1) (by simpa using hlen)
        intro i hi
        have := hag (i + 1) (by rw [← hi]; congr 1; omega)
        simpa using this
      rw [acceptedReadsFrom_cons, acceptedReadsFrom_cons, htail]
      by_cases h : (n + 1) % 4 = 2
      · have := hag 0 (by simpa using h)
        simp only [List.getElem?_cons_zero, Option.some.injEq] at this
        rw [this]
      · simp only [h, if_false]

theorem countKmersInFastq_congr (a b : List (List Char)) (kmers : List KmerCount)
    (hlen : a.length = b.length) (hag : ∀ i, (i + 1) % 4 = 2 → a[i]? = b[i]?) :
    countKmersInFastq a kmers = countKmersInFastq b kmers := by
  unfold countKmersInFastq
  rw [countLoop_eq_foldl, countLoop_eq_foldl,
    acceptedReadsFrom_congr a b 0 hlen (by intro i hi; exact hag i (by simpa using hi))]

theorem gzgets_line : ∀ (l rest : List Char) (n : Nat), Char.ofNat 10 ∉ l → l.length < n →
    gzgets n (l ++ Char.ofNat 10 :: rest) = (l ++ [Char.ofNat 10], rest) := by
  intro l
  induction l with
  | nil =>
    intro rest n _ hn
    cases n with
    | zero => omega
    | succ n => simp [gzgets]
  | cons c cs ih =>
    intro rest n hnl hn
    cases n with
    | zero => omega
    | succ n =>
      have hc : ¬ c = Char.ofNat 10 := by
        intro h
        apply hnl
        rw [h]
        exact List.mem_cons_self _ _
      have hcs : Char.ofNat 10 ∉ cs := fun h => hnl (List.mem_cons_of_mem _ h)
      rw [List.cons_append, gzgets, if_neg hc, ih rest n hcs (by simpa using hn)]
      rfl

theorem length_le_streamOf (lines : List (List Char)) :
    lines.length ≤ (streamOf lines).length := by
  induction lines with
  | nil => simp
  | cons l ls ih =>
    rw [streamOf, List.length_append, List.length_cons, List.length_cons]
    omega

theorem gzgetsAll_streamOf :
    ∀ (lines : List (List Char)) (fuel : Nat),
      (∀ l ∈ lines, Char.ofNat 10 ∉ l ∧ l.length + 1 < 1024) → lines.length ≤ fuel →
      gzgetsAll fuel (streamOf lines) = lines.map (fun l => l ++ [Char.ofNat 10]) := by
  intro lines
  induction lines with
  | nil =>
    intro fuel _ _
    cases fuel <;> rfl
  | cons l ls ih =>
    intro fuel hl hf
    cases fuel with
    | zero => simp at hf
    | succ fuel =>
      have hl0 := hl l (List.mem_cons_self _ _)
      obtain ⟨c, cs, hcs⟩ : ∃ c cs, l ++ Char.ofNat 10 :: streamOf ls = c :: cs := by
        cases l with
        | nil => exact ⟨_, _, rfl⟩
        | cons c cs => exact ⟨_, _, rfl⟩
      rw [streamOf, hcs, gzgetsAll, ← hcs,
        gzgets_line l (streamOf ls) LINE_MAX hl0.1 (by unfold LINE_MAX; omega)]
      simp only [List.map_cons]
      rw [ih fuel (fun l2 h2 => hl l2 (List.mem_cons_of_mem _ h2)) (by simpa using hf)]

theorem countKmersInStream_streamOf (lines : List (List Char)) (kmers : List KmerCount)
    (hl : ∀ l ∈ lines, Char.ofNat 10 ∉ l ∧ l.length + 1 < 1024) :
    countKmersInStream (streamOf lines) kmers =
      countKmersInFastq (lines.map (fun l => l ++ [Char.ofNat 10])) kmers := by
  unfold countKmersInStream
  rw [gzgetsAll_streamOf lines _ hl (length_le_streamOf lines)]

/-- C10: two inputs with the same number of lines, every line fitting with its
terminator in the read buffer (fewer than 1024 bytes), that agree on every line
whose 1-indexed number is congruent to 2 modulo 4, give the same result of
`countKmersInFastq`: the same store with the same counts, `totalKmers`,
`totalReads`, `readLength`, and the same lookups. -/
theorem only_sequence_lines_matter (a b : List (List Char)) (kmers : List KmerCount)
    (hlen : a.length = b.length)
    (ha : ∀ l ∈ a, Char.ofNat 10 ∉ l ∧ l.length + 1 < 1024)
    (hb : ∀ l ∈ b, Char.ofNat 10 ∉ l ∧ l.length + 1 < 1024)
    (hag : ∀ i, (i + 1) % 4 = 2 → a[i]? = b[i]?) :
    countKmersInStream (streamOf a) kmers = countKmersInStream (streamOf b) kmers := by
  rw [countKmersInStream_streamOf a kmers ha, countKmersInStream_streamOf b kmers hb]
  apply countKmersInFastq_congr
  · simp [hlen]
  · intro i hi
    simp only [List.getElem?_map, hag i hi]

/-- C10 on two records that share the read `AAAAAAAAAA` and differ in the
identifier, separator and quality lines. -/
theorem only_sequence_lines_matter_witness :
    recordLines.length = otherRecordLines.length ∧
    (∀ l ∈ recordLines, Char.ofNat 10 ∉ l ∧ l.length + 1 < 1024) ∧
    (∀ l ∈ otherRecordLines, Char.ofNat 10 ∉ l ∧ l.length + 1 < 1024) ∧
    (∀ i, (i + 1) % 4 = 2 → recordLines[i]? = otherRecordLines[i]?) ∧
    countKmersInStream (streamOf recordLines) scenarioStore =
      countKmersInStream (streamOf otherRecordLines) scenarioStore ∧
    (countKmersInStream (streamOf otherRecordLines) scenarioStore).kmers.map
      (fun e => e.count) = [3, 0] :=
  have hag : ∀ i, (i + 1) % 4 = 2 → recordLines[i]? = otherRecordLines[i]? := by
    intro i hi
    rcases i with _ | _ | _ | _ | _ | i
    · simp at hi
    · rfl
    · simp at hi
    · simp at hi
    · rfl
    · rfl
  ⟨by decide, by decide, by decide, hag,
    only_sequence_lines_matter recordLines otherRecordLines scenarioStore (by decide) (by decide)
      (by decide) hag,
    by decide!⟩

/-! ## The call bound of the `gzgets` loop is never reached -/

theorem gzgets_append : ∀ (n : Nat) (content : List Char),
    (gzgets n content).1 ++ (gzgets n content).2 = content := by
  intro n
  induction n with
  | zero => intro content; rfl
  | succ n ih =>
    intro content
    cases content with
    | nil => rfl
    | cons c cs =>
      by_cases hc : c = Char.ofNat 10
      · simp [gzgets, hc]
      · simp only [gzgets, hc, if_false, List.cons_append, ih]

theorem gzgets_rest_length (n : Nat) (c : Char) (cs : List Char) :
    (gzgets (n + 1) (c :: cs)).2.length ≤ cs.length := by
  by_cases hc : c = Char.ofNat 10
  · simp [gzgets, hc]
  · simp only [gzgets, hc, if_false]
    have := congrArg List.length (gzgets_append n cs)
    rw [List.length_append] at this
    omega

theorem gzgetsAll_fuel : ∀ (fuel1 fuel2 : Nat) (content : List Char),
    content.length ≤ fuel1 → content.length ≤ fuel2 →
    gzgetsAll fuel1 content = gzgetsAll fuel2 content := by
  intro fuel1
  induction fuel1 with
  | zero =>
    intro fuel2 content h1 _
    have : content = [] := List.length_eq_zero.mp (Nat.le_zero.mp h1)
    subst this
    cases fuel2 <;> rfl
  | succ f1 ih =>
    intro fuel2 content h1 h2
    cases content with
    | nil => cases fuel2 <;> rfl
    | cons c cs =>
      cases fuel2 with
      | zero => simp at h2
      | succ f2 =>
        have hr : (gzgets 1023 (c :: cs)).2.length ≤ cs.length := gzgets_rest_length 1022 c cs
        simp only [List.length_cons] at h1 h2
        simp only [gzgetsAll, LINE_MAX]
        rw [ih f2 _ (by omega) (by omega)]

theorem gzgetsAll_delivers : ∀ (fuel : Nat) (content : List Char), content.length ≤ fuel →
    (gzgetsAll fuel content).foldr (fun b rest => b ++ rest) [] = content := by
  intro fuel
  induction fuel with
  | zero =>
    intro content h
    rw [List.length_eq_zero.mp (Nat.le_zero.mp h)]
    rfl
  | succ f ih =>
    intro content h
    cases content with
    | nil => rfl
    | cons c cs =>
      have hr : (gzgets 1023 (c :: cs)).2.length ≤ cs.length := gzgets_rest_length 1022 c cs
      simp only [List.length_cons] at h
      simp only [gzgetsAll, LINE_MAX, List.foldr_cons]
      rw [ih _ (by omega), gzgets_append]

/-! ## The reported read length -/

theorem countWindow_readLength (line : List Char) (st : CountState) (i : Nat) :
    (countWindow line st i).readLength = st.readLength ∧
    (countWindow line st i).totalReads = st.totalReads := by
  unfold countWindow
  simp only
  split <;> exact ⟨rfl, rfl⟩

theorem foldl_countWindow_readLength (line : List Char) (l : List Nat) :
    ∀ (st : CountState),
      (l.foldl (countWindow line) st).readLength = st.readLength ∧
      (l.foldl (countWindow line) st).totalReads = st.totalReads := by
  induction l with
  | nil => intro st; exact ⟨rfl, rfl⟩
  | cons i is ih =>
    intro st
    rw [List.foldl_cons]
    have h1 := ih (countWindow line st i)
    have h2 := countWindow_readLength line st i
    exact ⟨h1.1.trans h2.1, h1.2.trans h2.2⟩

theorem windowLoop_readLength (line : List Char) (st : CountState) :
    (windowLoop line st).readLength = st.readLength ∧
    (windowLoop line st).totalReads = st.totalReads := by
  unfold windowLoop
  exact foldl_countWindow_readLength line _ st

theorem acceptRead_readLength (line : List Char) (st : CountState) :
    (acceptRead st line).readLength =
      if st.readLength = 0 then line.length else st.readLength := by
  unfold acceptRead
  simp only
  rw [(windowLoop_readLength line _).1]
  split <;> rfl

theorem foldl_acceptRead_readLength (reads : List (List Char)) :
    ∀ (st : CountState),
      (reads.foldl acceptRead st).readLength =
        if st.readLength = 0 then
          ((reads.map List.length).find? (fun n => n != 0)).getD 0
        else st.readLength := by
  induction reads with
  | nil =>
    intro st
    by_cases h : st.readLength = 0
    · simp [h]
    · simp [h]
  | cons r rs ih =>
    intro st
    rw [List.foldl_cons, ih, acceptRead_readLength]
    by_cases h : st.readLength = 0
    · by_cases hr : r.length = 0
      · simp [h, hr, List.find?_cons]
      · simp [h, hr, List.find?_cons]
    · simp [h]

theorem readLength_eq (lines : List (List Char)) (kmers : List KmerCount) :
    (countKmersInFastq lines kmers).readLength = firstPositiveReadLength lines := by
  rw [countKmersInFastq_eq_foldl, foldl_acceptRead_readLength]
  rfl

/-- C11: the code on two records whose reads are the empty read and `ACGT`.
Both reads are accepted and the first accepted read has length 0, yet
`*readLength` ends as 4: the test `*readLength == 0` takes the length 0 set by
the first read for "not set yet" and lets the second read set it. -/
theorem readLength_after_empty_read :
    acceptedReads emptyFirstReadLines = [[], "ACGT".toList] ∧
    firstReadLength emptyFirstReadLines = 0 ∧
    (countKmersInFastq emptyFirstReadLines scenarioStore).readLength = 4 ∧
    (countKmersInFastq emptyFirstReadLines scenarioStore).readLength ≠
      firstReadLength emptyFirstReadLines := by
  decide

/-- What the test `*readLength == 0` computes over a run: the length of the
first accepted read that is not empty, and 0 when there is none.  When the
first accepted read is not empty this is its length, whatever the lengths of
the later reads, and with no accepted read it is 0. -/
theorem readLength_first_positive (lines : List (List Char)) (kmers : List KmerCount) :
    (countKmersInFastq lines kmers).readLength = firstPositiveReadLength lines ∧
    (∀ r rs, acceptedReads lines = r :: rs → r.length ≠ 0 →
      (countKmersInFastq lines kmers).readLength = r.length) ∧
    (acceptedReads lines = [] → (countKmersInFastq lines kmers).readLength = 0) := by
  have h := readLength_eq lines kmers
  refine ⟨h, ?_, ?_⟩
  · intro r rs hr hlen
    rw [h]
    unfold firstPositiveReadLength
    rw [hr]
    simp [List.find?_cons, hlen]
  · intro hnil
    rw [h]
    unfold firstPositiveReadLength
    rw [hnil]
    rfl

/-- Three records whose reads are `ANA` (skipped), `AAAAAAAAAA` and `ACGT`:
the reported length is 10. -/
theorem readLength_first_positive_witness :
    acceptedReads variedLines = ["AAAAAAAAAA".toList, "ACGT".toList] ∧
    "AAAAAAAAAA".toList.length ≠ 0 ∧
    (countKmersInFastq variedLines scenarioStore).readLength = "AAAAAAAAAA".toList.length :=
  ⟨by decide, by decide,
    (readLength_first_positive variedLines scenarioStore).2.1 "AAAAAAAAAA".toList
      ["ACGT".toList] (by decide) (by decide)⟩

/-! ## Normalising twice -/

theorem finiteCounts_map_some (kmers : List KmerCount) (g : KmerCount → ℚ) :
    finiteCounts (kmers.map (fun e => { kmer := e.kmer, count := some (g e) })) =
      some (kmers.map (fun e => { kmer := e.kmer, count := g e })) := by
  induction kmers with
  | nil => rfl
  | cons x xs ih =>
    rw [List.map_cons, finiteCounts, ih]
    rfl

theorem totalOccurrences_rescaled (kmers : List KmerCount) (h : totalOccurrences kmers ≠ 0) :
    totalOccurrences
        (kmers.map (fun e =>
          ({ kmer := e.kmer, count := e.count * 4 ^ 8 / totalOccurrences kmers } : KmerCount))) =
      4 ^ 8 := by
  rw [totalOccurrences_eq_sum, List.map_map]
  have : ((fun e : KmerCount => e.count) ∘ fun e : KmerCount =>
      ({ kmer := e.kmer, count := e.count * 4 ^ 8 / totalOccurrences kmers } : KmerCount)) =
      fun e => e.count * 4 ^ 8 / totalOccurrences kmers := rfl
  rw [this, sum_rescaled, ← totalOccurrences_eq_sum]
  field_simp

/-- C12, amended: in exact arithmetic normalisation is idempotent.  For a
store whose total raw count is greater than zero, the first normalisation
leaves numbers only, their total is `4^8`, and normalising them again gives the
same counts as normalising once. -/
theorem normalizeCounts_idempotent (kmers : List KmerCount) (h : 0 < totalOccurrences kmers) :
    ∃ once : List KmerCount,
      finiteCounts (normalizeCounts kmers) = some once ∧
      totalOccurrences once = 4 ^ 8 ∧
      normalizeCounts once = normalizeCounts kmers := by
  have hne : totalOccurrences kmers ≠ 0 := ne_of_gt h
  refine ⟨kmers.map (fun e =>
    { kmer := e.kmer, count := e.count * 4 ^ 8 / totalOccurrences kmers }), ?_, ?_, ?_⟩
  · rw [normalizeCounts_of_ne_zero kmers hne]
    exact finiteCounts_map_some kmers _
  · exact totalOccurrences_rescaled kmers hne
  · have ht := totalOccurrences_rescaled kmers hne
    rw [normalizeCounts_of_ne_zero _ (by rw [ht]; norm_num), ht,
      normalizeCounts_of_ne_zero kmers hne, List.map_map]
    apply List.map_congr_left
    intro e _
    simp only [Function.comp]
    congr 2
    field_simp
    ring

/-- C12, amended, on Scenario A: the counts 65536 and 0 stay 65536 and 0 under
a second normalisation. -/
theorem normalizeCounts_idempotent_witness :
    0 < totalOccurrences (countKmersInFastq scenarioLines scenarioStore).kmers ∧
    (∃ once : List KmerCount,
      finiteCounts (normalizeCounts (countKmersInFastq scenarioLines scenarioStore).kmers) =
        some once ∧
      totalOccurrences once = 4 ^ 8 ∧
      normalizeCounts once =
        normalizeCounts (countKmersInFastq scenarioLines scenarioStore).kmers) ∧
    finiteCounts (normalizeCounts (countKmersInFastq scenarioLines scenarioStore).kmers) =
      some [{ kmer := "AAAAAAAA".toList, count := 65536 },
        { kmer := "CCCCCCCC".toList, count := 0 }] ∧
    (normalizeCounts [{ kmer := "AAAAAAAA".toList, count := 65536 },
        { kmer := "CCCCCCCC".toList, count := 0 }]).map (fun e => e.count) =
      [some 65536, some 0] :=
  ⟨by decide!,
    normalizeCounts_idempotent (countKmersInFastq scenarioLines scenarioStore).kmers (by decide!),
    by decide!, by decide!⟩

/-- The rounding at work: whole numbers below `2^53` and `4^8` are kept, a third
is rounded to 53 bits, and `2^53 + 1`, half way between two `double`s, goes to
the even one. -/
theorem roundToDouble_examples :
    roundToDouble 3 = 3 ∧ roundToDouble 65536 = 65536 ∧
    roundToDouble (-5 / 2) = -5 / 2 ∧
    roundToDouble (1 / 3) = 6004799503160661 / 18014398509481984 ∧
    roundToDouble 9007199254740993 = 9007199254740992 ∧
    roundToDouble 9007199254740995 = 9007199254740996 := by
  decide!

/-- C12 as stated fails on `double`s: with the raw counts 1, 4 and 1 the first
normalisation gives 6004799503160661 / 2^39 for the first entry, the rounded
total of these counts is not `4^8`, and a second normalisation moves every
count to its neighbouring `double`, here 6004799503160662 / 2^39. -/
theorem normalizeCountsDouble_not_idempotent :
    (countKmersInFastq oneFourOneLines threeStore).kmers.map (fun e => e.count) = [1, 4, 1] ∧
    0 < totalOccurrences (countKmersInFastq oneFourOneLines threeStore).kmers ∧
    finiteCounts (normalizeCountsDouble (countKmersInFastq oneFourOneLines threeStore).kmers) =
      some [{ kmer := "AAAAAAAA".toList, count := 6004799503160661 / 549755813888 },
        { kmer := "CCCCCCCC".toList, count := 6004799503160661 / 137438953472 },
        { kmer := "GGGGGGGG".toList, count := 6004799503160661 / 549755813888 }] ∧
    totalOccurrencesDouble
        [{ kmer := "AAAAAAAA".toList, count := 6004799503160661 / 549755813888 },
          { kmer := "CCCCCCCC".toList, count := 6004799503160661 / 137438953472 },
          { kmer := "GGGGGGGG".toList, count := 6004799503160661 / 549755813888 }] ≠ 4 ^ 8 ∧
    (normalizeCountsDouble
        [{ kmer := "AAAAAAAA".toList, count := 6004799503160661 / 549755813888 },
          { kmer := "CCCCCCCC".toList, count := 6004799503160661 / 137438953472 },
          { kmer := "GGGGGGGG".toList, count := 6004799503160661 / 549755813888 }]).map
        (fun e => e.count) =
      [some (3002399751580331 / 274877906944), some (3002399751580331 / 68719476736),
        some (3002399751580331 / 274877906944)] ∧
    normalizeCountsDouble
        [{ kmer := "AAAAAAAA".toList, count := 6004799503160661 / 549755813888 },
          { kmer := "CCCCCCCC".toList, count := 6004799503160661 / 137438953472 },
          { kmer := "GGGGGGGG".toList, count := 6004799503160661 / 549755813888 }] ≠
      normalizeCountsDouble (countKmersInFastq oneFourOneLines threeStore).kmers := by
  decide!

/-! ## Counting and normalisation leave the sequences alone -/

theorem incrAt_keys : ∀ (kmers : List KmerCount) (i : Nat),
    (incrAt kmers i).map (fun e => e.kmer) = kmers.map (fun e => e.kmer) := by
  intro kmers
  induction kmers with
  | nil => intro i; rfl
  | cons x xs ih =>
    intro i
    cases i with
    | zero => rfl
    | succ j =>
      rw [incrAt, List.map_cons, List.map_cons, ih]

theorem countWindow_keys (line : List Char) (st : CountState) (i : Nat) :
    (countWindow line st i).kmers.map (fun e => e.kmer) = st.kmers.map (fun e => e.kmer) := by
  unfold countWindow
  simp only
  split
  · exact incrAt_keys _ _
  · rfl

theorem foldl_countWindow_keys (line : List Char) (l : List Nat) :
    ∀ (st : CountState),
      (l.foldl (countWindow line) st).kmers.map (fun e => e.kmer) =
        st.kmers.map (fun e => e.kmer) := by
  induction l with
  | nil => intro st; rfl
  | cons i is ih =>
    intro st
    rw [List.foldl_cons, ih, countWindow_keys]

theorem acceptRead_keys (line : List Char) (st : CountState) :
    (acceptRead st line).kmers.map (fun e => e.kmer) = st.kmers.map (fun e => e.kmer) := by
  unfold acceptRead windowLoop
  simp only
  rw [foldl_countWindow_keys]
  split <;> rfl

theorem foldl_acceptRead_keys (reads : List (List Char)) :
    ∀ (st : CountState),
      (reads.foldl acceptRead st).kmers.map (fun e => e.kmer) =
        st.kmers.map (fun e => e.kmer) := by
  induction reads with
  | nil => intro st; rfl
  | cons r rs ih =>
    intro st
    rw [List.foldl_cons, ih, acceptRead_keys]

theorem countKmersInFastq_keys (lines : List (List Char)) (kmers : List KmerCount) :
    (countKmersInFastq lines kmers).kmers.map (fun e => e.kmer) =
      kmers.map (fun e => e.kmer) := by
  rw [countKmersInFastq_eq_foldl, foldl_acceptRead_keys]

theorem normalizeCounts_keys (kmers : List KmerCount) :
    (normalizeCounts kmers).map (fun e => e.kmer) = kmers.map (fun e => e.kmer) := by
  unfold normalizeCounts
  simp only [List.map_map]
  rfl

theorem storeSorted_iff_keys (kmers : List KmerCount) :
    StoreSorted kmers ↔
      (kmers.map (fun e => e.kmer)).Pairwise (fun a b => strcmp a b ≤ 0) := by
  unfold StoreSorted
  rw [List.pairwise_map]
  rfl

theorem storeSorted_of_keys {a b : List KmerCount}
    (h : a.map (fun e => e.kmer) = b.map (fun e => e.kmer)) (hs : StoreSorted b) :
    StoreSorted a := by
  rw [storeSorted_iff_keys] at hs ⊢
  rw [h]
  exact hs

theorem getElem?_kmer_of_keys {a b : List KmerCount}
    (h : a.map (fun e => e.kmer) = b.map (fun e => e.kmer)) (i : Nat) :
    (a[i]?).map (fun e => e.kmer) = (b[i]?).map (fun e => e.kmer) := by
  rw [← List.getElem?_map, ← List.getElem?_map, h]

theorem bsearchLoop_of_keys {a b : List KmerCount} (key : KmerCount)
    (h : a.map (fun e => e.kmer) = b.map (fun e => e.kmer)) :
    ∀ (fuel l u : Nat), bsearchLoop key a fuel l u = bsearchLoop key b fuel l u := by
  intro fuel
  induction fuel with
  | zero => intro l u; rfl
  | succ n ih =>
    intro l u
    unfold bsearchLoop
    have hk := getElem?_kmer_of_keys h ((l + u) / 2)
    cases ha : a[(l + u) / 2]? with
    | none =>
      cases hb : b[(l + u) / 2]? with
      | none => simp only [ha, hb]
      | some y => rw [ha, hb] at hk; simp at hk
    | some x =>
      cases hb : b[(l + u) / 2]? with
      | none => rw [ha, hb] at hk; simp at hk
      | some y =>
        rw [ha, hb] at hk
        simp only [Option.map_some', Option.some.injEq] at hk
        simp only [ha, hb, compareKmers, hk, ih]

theorem findKmer_of_keys {a b : List KmerCount}
    (h : a.map (fun e => e.kmer) = b.map (fun e => e.kmer)) (kmer : List Char) :
    findKmer a kmer = findKmer b kmer := by
  unfold findKmer bsearch
  have hl : a.length = b.length := by
    have := congrArg List.length h
    simpa using this
  rw [hl]
  exact bsearchLoop_of_keys _ h _ _ _

/-- C13: counting and normalisation change only the counts.  For every store
and every input, the store after `countKmersInFastq`, and again after the
normalisation step, has the same number of entries with the same sequences in
the same order; so a sorted store stays sorted, and `findKmer` answers on it as
on the store before. -/
theorem counting_keeps_sequences (kmers : List KmerCount) (lines : List (List Char)) :
    (countKmersInFastq lines kmers).kmers.map (fun e => e.kmer) = kmers.map (fun e => e.kmer) ∧
    (countKmersInFastq lines kmers).kmers.length = kmers.length ∧
    (normalizeCounts (countKmersInFastq lines kmers).kmers).map (fun e => e.kmer) =
      kmers.map (fun e => e.kmer) ∧
    (normalizeCounts (countKmersInFastq lines kmers).kmers).length = kmers.length ∧
    (StoreSorted kmers → StoreSorted (countKmersInFastq lines kmers).kmers) ∧
    (∀ candidate, findKmer (countKmersInFastq lines kmers).kmers candidate =
      findKmer kmers candidate) := by
  have hk := countKmersInFastq_keys lines kmers
  have hn := normalizeCounts_keys (countKmersInFastq lines kmers).kmers
  refine ⟨hk, ?_, hn.trans hk, ?_, fun hs => storeSorted_of_keys hk hs,
    fun c => findKmer_of_keys hk c⟩
  · have := congrArg List.length hk
    simpa using this
  · have := congrArg List.length (hn.trans hk)
    simpa using this

/-- C13 on Scenario A. -/
theorem counting_keeps_sequences_witness :
    StoreSorted scenarioStore ∧
    StoreSorted (countKmersInFastq scenarioLines scenarioStore).kmers ∧
    (normalizeCounts (countKmersInFastq scenarioLines scenarioStore).kmers).map
      (fun e => e.kmer) = ["AAAAAAAA".toList, "CCCCCCCC".toList] :=
  ⟨by decide,
    (counting_keeps_sequences scenarioStore scenarioLines).2.2.2.2.1 (by decide),
    by decide!⟩

/-! ## The totals kept beside the store -/

theorem wrapInt32_of_le {x : Int} (h0 : 0 ≤ x) (h1 : x ≤ 2147483647) : wrapInt32 x = x := by
  unfold wrapInt32
  omega

theorem wrapInt32_wrap_add (x k : Int) : wrapInt32 (wrapInt32 x + k) = wrapInt32 (x + k) := by
  unfold wrapInt32
  omega

theorem wrapInt32_idem (x : Int) : wrapInt32 (wrapInt32 x) = wrapInt32 x := by
  unfold wrapInt32
  omega

theorem wrapInt32_of_nat_le (n : Nat) (h : n ≤ 2147483647) : wrapInt32 (n : Int) = n :=
  wrapInt32_of_le (by omega) (by omega)

theorem sum_incrAt : ∀ (kmers : List KmerCount) (i : Nat) (e : KmerCount),
    kmers[i]? = some e →
    ((incrAt kmers i).map (fun x => x.count)).sum = (kmers.map (fun x => x.count)).sum + 1 := by
  intro kmers
  induction kmers with
  | nil => intro i e h; simp at h
  | cons x xs ih =>
    intro i e h
    cases i with
    | zero =>
      simp only [incrAt, List.map_cons, List.sum_cons]
      ring
    | succ j =>
      simp only [List.getElem?_cons_succ] at h
      simp only [incrAt, List.map_cons, List.sum_cons, ih j e h]
      ring

theorem countWindow_totals (line : List Char) (st : CountState) (i : Nat)
    (hfix : wrapInt32 st.totalKmers = st.totalKmers) :
    ∃ k : ℕ, totalOccurrences (countWindow line st i).kmers = totalOccurrences st.kmers + k ∧
      (countWindow line st i).totalKmers = wrapInt32 (st.totalKmers + k) := by
  unfold countWindow
  simp only
  cases hf : findKmer st.kmers ((line.drop i).take KMER_LENGTH) with
  | none =>
    refine ⟨0, ?_, ?_⟩
    · simp
    · simp [hfix]
  | some idx =>
    obtain ⟨e, he, _⟩ := findKmer_some hf
    refine ⟨1, ?_, ?_⟩
    · simp only [totalOccurrences_eq_sum, sum_incrAt _ _ e he, Nat.cast_one]
    · simp

theorem foldl_countWindow_totals (line : List Char) (l : List Nat) :
    ∀ (st : CountState), wrapInt32 st.totalKmers = st.totalKmers →
      ∃ k : ℕ,
        totalOccurrences (l.foldl (countWindow line) st).kmers = totalOccurrences st.kmers + k ∧
        (l.foldl (countWindow line) st).totalKmers = wrapInt32 (st.totalKmers + k) := by
  induction l with
  | nil =>
    intro st hfix
    exact ⟨0, by simp, by simp [hfix]⟩
  | cons i is ih =>
    intro st hfix
    rw [List.foldl_cons]
    obtain ⟨k1, h1, h2⟩ := countWindow_totals line st i hfix
    obtain ⟨k2, h3, h4⟩ := ih (countWindow line st i) (by rw [h2, wrapInt32_idem])
    refine ⟨k1 + k2, ?_, ?_⟩
    · rw [h3, h1]
      push_cast
      ring
    · rw [h4, h2, wrapInt32_wrap_add]
      push_cast
      rw [add_assoc]

theorem acceptRead_totals (line : List Char) (st : CountState)
    (hfix : wrapInt32 st.totalKmers = st.totalKmers) :
    ∃ k : ℕ, totalOccurrences (acceptRead st line).kmers = totalOccurrences st.kmers + k ∧
      (acceptRead st line).totalKmers = wrapInt32 (st.totalKmers + k) := by
  unfold acceptRead windowLoop
  simp only
  split
  · exact foldl_countWindow_totals line _ _ hfix
  · exact foldl_countWindow_totals line _ _ hfix

theorem foldl_acceptRead_totals (reads : List (List Char)) :
    ∀ (st : CountState), wrapInt32 st.totalKmers = st.totalKmers →
      ∃ k : ℕ,
        totalOccurrences (reads.foldl acceptRead st).kmers = totalOccurrences st.kmers + k ∧
        (reads.foldl acceptRead st).totalKmers = wrapInt32 (st.totalKmers + k) := by
  induction reads with
  | nil =>
    intro st hfix
    exact ⟨0, by simp, by simp [hfix]⟩
  | cons r rs ih =>
    intro st hfix
    rw [List.foldl_cons]
    obtain ⟨k1, h1, h2⟩ := acceptRead_totals r st hfix
    obtain ⟨k2, h3, h4⟩ := ih (acceptRead st r) (by rw [h2, wrapInt32_idem])
    refine ⟨k1 + k2, ?_, ?_⟩
    · rw [h3, h1]
      push_cast
      ring
    · rw [h4, h2, wrapInt32_wrap_add]
      push_cast
      rw [add_assoc]

theorem acceptRead_totalReads (line : List Char) (st : CountState) :
    (acceptRead st line).totalReads = wrapInt32 (st.totalReads + 1) := by
  unfold acceptRead
  simp only
  rw [(windowLoop_readLength line _).2]
  split <;> rfl

theorem foldl_acceptRead_totalReads (reads : List (List Char)) :
    ∀ (st : CountState), wrapInt32 st.totalReads = st.totalReads →
      (reads.foldl acceptRead st).totalReads = wrapInt32 (st.totalReads + reads.length) := by
  induction reads with
  | nil =>
    intro st hfix
    simp [hfix]
  | cons r rs ih =>
    intro st hfix
    rw [List.foldl_cons, ih _ (by rw [acceptRead_totalReads, wrapInt32_idem]),
      acceptRead_totalReads, wrapInt32_wrap_add, List.length_cons]
    push_cast
    rw [add_assoc, add_comm (1 : Int)]

theorem totalOccurrences_of_zero (kmers : List KmerCount) (h0 : ∀ e ∈ kmers, e.count = 0) :
    totalOccurrences kmers = 0 := by
  rw [totalOccurrences_eq_sum]
  apply List.sum_eq_zero
  intro q hq
  obtain ⟨e, he, rfl⟩ := List.mem_map.mp hq
  exact h0 e he

theorem length_acceptedReads (lines : List (List Char)) :
    (acceptedReads lines).length =
      ((sequenceLines lines).filter (fun l => decide (Char.ofNat 78 ∉ readOf l))).length := by
  unfold acceptedReads
  rw [List.filter_map, List.length_map]
  rfl

theorem totalKmers_eq_wrap (kmers : List KmerCount) (lines : List (List Char))
    (h0 : ∀ e ∈ kmers, e.count = 0) :
    ∃ k : ℕ, totalOccurrences (countKmersInFastq lines kmers).kmers = k ∧
      (countKmersInFastq lines kmers).totalKmers = wrapInt32 k := by
  rw [countKmersInFastq_eq_foldl]
  obtain ⟨k, h1, h2⟩ := foldl_acceptRead_totals (acceptedReads lines)
    { kmers := kmers, totalKmers := 0, totalReads := 0, readLength := 0, lookups := [] } rfl
  refine ⟨k, ?_, ?_⟩
  · rw [h1, totalOccurrences_of_zero kmers h0, zero_add]
  · rw [h2]
    simp

/-- While no `int` overflows the two totals are what they are meant to be: for
every store, sorted or not, whose counts start at 0, if the sum of the counts
after `countKmersInFastq` is at most `INT_MAX` then `totalKmers` is that sum,
and if the number of sequence lines whose read holds no `N` is at most
`INT_MAX` then `totalReads` is that number. -/
theorem totals_below_limit (kmers : List KmerCount) (lines : List (List Char))
    (h0 : ∀ e ∈ kmers, e.count = 0) :
    (totalOccurrences (countKmersInFastq lines kmers).kmers ≤ 2147483647 →
      ((countKmersInFastq lines kmers).totalKmers : ℚ) =
        totalOccurrences (countKmersInFastq lines kmers).kmers) ∧
    (((sequenceLines lines).filter (fun l => decide (Char.ofNat 78 ∉ readOf l))).length
        ≤ 2147483647 →
      (countKmersInFastq lines kmers).totalReads =
        ((sequenceLines lines).filter (fun l => decide (Char.ofNat 78 ∉ readOf l))).length) := by
  constructor
  · intro hle
    obtain ⟨k, h1, h2⟩ := totalKmers_eq_wrap kmers lines h0
    rw [h1] at hle ⊢
    have hk : k ≤ 2147483647 := by exact_mod_cast hle
    rw [h2, wrapInt32_of_nat_le k hk]
    simp
  · intro hle
    rw [countKmersInFastq_eq_foldl, foldl_acceptRead_totalReads _ _ rfl, length_acceptedReads]
    simp only [zero_add]
    exact wrapInt32_of_nat_le _ hle

theorem acceptedReadsFrom_polyA (rest : List (List Char)) (m : Nat) (hm : m % 4 = 0) :
    acceptedReadsFrom m (polyARecord ++ rest) = polyARead :: acceptedReadsFrom (m + 4) rest := by
  have h1 : ¬ (m + 1) % 4 = 2 := by omega
  have h2 : (m + 1 + 1) % 4 = 2 := by omega
  have h3 : ¬ (m + 1 + 1 + 1) % 4 = 2 := by omega
  have h4 : ¬ (m + 1 + 1 + 1 + 1) % 4 = 2 := by omega
  have hr : readOf (polyARead ++ [Char.ofNat 10]) = polyARead := by decide
  have hN : Char.ofNat 78 ∉ polyARead := by decide
  unfold polyARecord
  simp only [List.cons_append, List.nil_append]
  rw [acceptedReadsFrom_cons, if_neg h1, acceptedReadsFrom_cons, if_pos h2, hr, if_neg hN,
    acceptedReadsFrom_cons, if_neg h3, acceptedReadsFrom_cons, if_neg h4]

theorem acceptedReadsFrom_polyAInput : ∀ (n m : Nat), m % 4 = 0 →
    acceptedReadsFrom m (polyAInput n) = List.replicate n polyARead := by
  intro n
  induction n with
  | zero => intro m _; rfl
  | succ n ih =>
    intro m hm
    rw [polyAInput, acceptedReadsFrom_polyA _ m hm, ih (m + 4) (by omega)]
    rfl

theorem matchOffsets_polyA : (matchOffsets polyARead "AAAAAAAA".toList).length = 143 := by
  decide!

theorem kmers_polyAInput (n : Nat) :
    (countKmersInFastq (polyAInput n) polyAStore).kmers =
      [{ kmer := "AAAAAAAA".toList, count := ((143 * n : ℕ) : ℚ) }] := by
  rw [countKmersInFastq_eq_foldl, foldl_acceptRead_kmers _ _ (by decide) (by decide),
    acceptedReads_eq_from, acceptedReadsFrom_polyAInput n 0 rfl]
  simp only [polyAStore, List.map_cons, List.map_nil, List.map_replicate, List.sum_replicate,
    matchOffsets_polyA, smul_eq_mul, zero_add]
  rw [Nat.mul_comm]

/-- C14: the code on 15017369 records whose read is 150 times `A`, with the
vocabulary `AAAAAAAA`.  Every one of the 143 windows of every read matches, so
the count of the entry, a `double`, ends as 2147483767; the `int` counter
`*totalKmers` is incremented as often, passes `INT_MAX = 2147483647` and holds
-2147483529.  The sum of the counts and `totalKmers` differ. -/
theorem totalKmers_overflows :
    (polyAInput 15017369).length = 60069476 ∧
    (countKmersInFastq (polyAInput 15017369) polyAStore).kmers =
      [{ kmer := "AAAAAAAA".toList, count := 2147483767 }] ∧
    totalOccurrences (countKmersInFastq (polyAInput 15017369) polyAStore).kmers = 2147483767 ∧
    (countKmersInFastq (polyAInput 15017369) polyAStore).totalKmers = -2147483529 ∧
    ((countKmersInFastq (polyAInput 15017369) polyAStore).totalKmers : ℚ) ≠
      totalOccurrences (countKmersInFastq (polyAInput 15017369) polyAStore).kmers := by
  have hlen : ∀ n, (polyAInput n).length = 4 * n := by
    intro n
    induction n with
    | zero => rfl
    | succ n ih =>
      rw [polyAInput, List.length_append, ih]
      simp only [polyARecord, List.length_cons, List.length_nil]
      omega
  have hk := kmers_polyAInput 15017369
  have hk2 : (countKmersInFastq (polyAInput 15017369) polyAStore).kmers =
      [{ kmer := "AAAAAAAA".toList, count := 2147483767 }] := by
    rw [hk]
    norm_num
  have ht : totalOccurrences (countKmersInFastq (polyAInput 15017369) polyAStore).kmers =
      2147483767 := by
    rw [hk2, totalOccurrences_eq_sum]
    simp
  obtain ⟨k, h1, h2⟩ := totalKmers_eq_wrap polyAStore (polyAInput 15017369) (by decide!)
  have hkv : k = 2147483767 := by
    rw [ht] at h1
    exact_mod_cast h1.symm
  have htk : (countKmersInFastq (polyAInput 15017369) polyAStore).totalKmers = -2147483529 := by
    rw [h2, hkv]
    decide
  refine ⟨by rw [hlen], hk2, ht, htk, ?_⟩
  rw [htk, ht]
  norm_num

/-! ## Duplicate sequences -/

theorem strcmp_antisymm {a b : List Char} (h1 : strcmp a b ≤ 0) (h2 : strcmp b a ≤ 0) :
    a = b := by
  rcases lt_or_eq_of_le h1 with h | h
  · have := strcmp_swap_neg h
    omega
  · exact strcmp_eq_zero h

theorem zero_entries_eq_map (l : List KmerCount) (h0 : ∀ e ∈ l, e.count = 0) :
    l = (l.map (fun e => e.kmer)).map (fun k => ({ kmer := k, count := 0 } : KmerCount)) := by
  rw [List.map_map]
  refine ((List.map_congr_left ?_).trans (List.map_id l)).symm
  intro e he
  simp only [Function.comp, id]
  rw [← h0 e he]

theorem sorted_perm_unique (l1 l2 : List KmerCount) (h1 : ∀ e ∈ l1, e.count = 0)
    (h2 : ∀ e ∈ l2, e.count = 0) (hp : l1.Perm l2) (hs1 : StoreSorted l1)
    (hs2 : StoreSorted l2) : l1 = l2 := by
  haveI : IsAntisymm (List Char) (fun a b => strcmp a b ≤ 0) :=
    ⟨fun _ _ hab hba => strcmp_antisymm hab hba⟩
  have hk : l1.map (fun e => e.kmer) = l2.map (fun e => e.kmer) :=
    List.eq_of_perm_of_sorted (hp.map _) ((storeSorted_iff_keys l1).mp hs1)
      ((storeSorted_iff_keys l2).mp hs2)
  rw [zero_entries_eq_map l1 h1, zero_entries_eq_map l2 h2, hk]

theorem loadKmers_counts_zero (lines : List (List Char)) :
    ∀ e ∈ (loadKmers lines).kmers, e.count = 0 := by
  intro e he
  obtain ⟨l, _, rfl⟩ := mem_loadKmers he
  rfl

theorem loadKmers_perm (v1 v2 : List (List Char)) (hp : v1.Perm v2) :
    (loadKmers v1).kmers = (loadKmers v2).kmers := by
  apply sorted_perm_unique _ _ (loadKmers_counts_zero v1) (loadKmers_counts_zero v2)
  · rw [loadKmers_eq, loadKmers_eq]
    refine (qsort_perm _).trans (List.Perm.trans ?_ (qsort_perm _).symm)
    exact (hp.filter _).map _
  · rw [loadKmers_eq]
    exact qsort_sorted _
  · rw [loadKmers_eq]
    exact qsort_sorted _

/-- C15: the result does not depend on the order of the vocabulary lines.  For
two vocabulary sources that are permutations of each other, duplicates allowed,
`loadKmers` returns the same store, so with the same read input counting and
normalisation give the same list of sequences and counts in the same order. -/
theorem vocabulary_order_irrelevant (v1 v2 reads : List (List Char)) (hp : v1.Perm v2) :
    (loadKmers v1).kmers = (loadKmers v2).kmers ∧
    (loadKmers v1).kmerCount = (loadKmers v2).kmerCount ∧
    countKmersInFastq reads (loadKmers v1).kmers =
      countKmersInFastq reads (loadKmers v2).kmers ∧
    normalizeCounts (countKmersInFastq reads (loadKmers v1).kmers).kmers =
      normalizeCounts (countKmersInFastq reads (loadKmers v2).kmers).kmers := by
  have h := loadKmers_perm v1 v2 hp
  refine ⟨h, ?_, by rw [h], by rw [h]⟩
  rw [loadKmers_eq, loadKmers_eq]
  exact (hp.filter _).length_eq

/-- C15 on the vocabulary `CCCCCCCC`, `AAAAAAAA`, `CCCCCCCC` and a reordering
of it, with the read `AAAAAAAAAA`. -/
theorem vocabulary_order_irrelevant_witness :
    duplicateVocabulary.Perm permutedVocabulary ∧
    normalizeCounts (countKmersInFastq scenarioLines (loadKmers duplicateVocabulary).kmers).kmers =
      normalizeCounts
        (countKmersInFastq scenarioLines (loadKmers permutedVocabulary).kmers).kmers ∧
    normalizeCounts
        (countKmersInFastq scenarioLines (loadKmers permutedVocabulary).kmers).kmers =
      [{ kmer := "AAAAAAAA".toList, count := some 65536 },
        { kmer := "CCCCCCCC".toList, count := some 0 },
        { kmer := "CCCCCCCC".toList, count := some 0 }] :=
  have hp : duplicateVocabulary.Perm permutedVocabulary :=
    List.Perm.swap _ _ _
  ⟨hp, (vocabulary_order_irrelevant duplicateVocabulary permutedVocabulary scenarioLines hp).2.2.2,
    by decide!⟩

/-! ## The two passes of `loadKmers` -/

theorem validLines_append (a b : List (List Char)) :
    validLines (a ++ b) = validLines a ++ validLines b := by
  unfold validLines
  exact List.filter_append _ _

/-- C17: the two passes of `loadKmers` agree.  Reading the same lines, the
second pass writes as many entries as the first pass counted, so the array of
`*kmerCount` slots is filled exactly: every write of the second pass goes to an
index below `*kmerCount`, and `qsort` sorts initialised entries only. -/
theorem passes_agree (lines : List (List Char)) (errs : List Diagnostic) :
    (lines.foldl fillPass ([], errs)).1.length = (lines.foldl countPass (0, [])).1 ∧
    (loadKmers lines).kmerCount = (lines.foldl countPass (0, [])).1 ∧
    (loadKmers lines).kmers.length = (loadKmers lines).kmerCount ∧
    (lines.foldl fillPass ([], errs)).1.take (loadKmers lines).kmerCount =
      (lines.foldl fillPass ([], errs)).1 ∧
    (∀ pre l post, lines = pre ++ l :: post → (trimLine l).length = KMER_LENGTH →
      (pre.foldl fillPass ([], errs)).1.length < (loadKmers lines).kmerCount) := by
  have hfill : (lines.foldl fillPass ([], errs)).1.length = (validLines lines).length := by
    rw [foldl_fillPass]
    simp
  have hcount : (lines.foldl countPass (0, [])).1 = (validLines lines).length := by
    rw [foldl_countPass]
    simp
  have hkc : (loadKmers lines).kmerCount = (validLines lines).length := by
    rw [loadKmers_eq]
  refine ⟨hfill.trans hcount.symm, hkc.trans hcount.symm, ?_, ?_, ?_⟩
  · rw [hkc, loadKmers_eq]
    simp only
    rw [(qsort_perm _).length_eq, List.length_map]
  · rw [hkc, ← hfill]
    exact List.take_length _
  · intro pre l post hl hvalid
    rw [hkc, hl, foldl_fillPass, validLines_append]
    have hmem : validLines (l :: post) = l :: validLines post := by
      unfold validLines
      simp [List.filter_cons, hvalid]
    rw [hmem]
    simp

/-- C17 on a vocabulary with two valid and two invalid lines: both passes
arrive at 2. -/
theorem passes_agree_witness :
    (mixedVocabulary.foldl countPass (0, [])).1 = 2 ∧
    (mixedVocabulary.foldl fillPass ([], [])).1.length = 2 ∧
    (mixedVocabulary.foldl fillPass ([], [])).1.length =
      (mixedVocabulary.foldl countPass (0, [])).1 :=
  ⟨by decide, by decide, (passes_agree mixedVocabulary []).1⟩

end KmerCounting
